import Mathlib

/-!
Verification development for the pxlr document storage engine
(`libpxlr-rs`): a shallow embedding of the container codec
(`document_file/src/meta.rs`), the node-kind discriminant codec
(`document/src/node/mod.rs`), and the version-0 partition file engine
(`document/src/file.rs`, `document/src/note.rs`), together with proofs
of the specified properties.

Bytes are modelled as natural numbers (every encoder emits values
`< 256`); byte strings are `List Nat`.  Multi-byte integers are
little-endian, matching the source.  Fallible parsers return
`Option (List Nat × α)`: `none` is a recoverable parse error
(`nom::Err` in the source), `some (rest, v)` is success with the
unconsumed remainder `rest`.
-/

/-! ### Primitive codec (little-endian integers, tags, raw byte runs) -/

/-- Little-endian encoding of `n` on `k` bytes (`to_le_bytes` in the source). -/
def toLE : Nat → Nat → List Nat
  | _, 0 => []
  | n, k + 1 => (n % 256) :: toLE (n / 256) k

/-- Little-endian value of a byte string. -/
def fromLE : List Nat → Nat
  | [] => 0
  | b :: r => b + 256 * fromLE r

/-- Take exactly `k` raw bytes; fails (recoverable) when fewer remain. -/
def pBytes (k : Nat) (b : List Nat) : Option (List Nat × List Nat) :=
  if k ≤ b.length then some (b.drop k, b.take k) else none

/-- Parse a `k`-byte little-endian unsigned integer (`le_u8/16/32/64`). -/
def pLE (k : Nat) (b : List Nat) : Option (List Nat × Nat) :=
  (pBytes k b).map (fun p => (p.1, fromLE p.2))

/-- Parse a literal byte tag (`nom::bytes::complete::tag`). -/
def pTag (t : List Nat) (b : List Nat) : Option (List Nat × Unit) :=
  if b.take t.length = t then some (b.drop t.length, ()) else none

theorem toLE_length (n k : Nat) : (toLE n k).length = k := by
  induction k generalizing n with
  | zero => rfl
  | succ k ih => simp [toLE, ih]

theorem fromLE_toLE (n k : Nat) : fromLE (toLE n k) = n % 256 ^ k := by
  induction k generalizing n with
  | zero => simp [toLE, fromLE, Nat.mod_one]
  | succ k ih =>
      simp only [toLE, fromLE, ih]
      rw [pow_succ, mul_comm (256 ^ k) 256, Nat.mod_mul]

theorem pBytes_append (l r : List Nat) :
    pBytes l.length (l ++ r) = some (r, l) := by
  simp [pBytes]

theorem pLE_toLE (n k : Nat) (r : List Nat) :
    pLE k (toLE n k ++ r) = some (r, n % 256 ^ k) := by
  have h := pBytes_append (toLE n k) r
  rw [toLE_length] at h
  simp [pLE, h, fromLE_toLE]

theorem pLE_toLE_of_lt (n k : Nat) (r : List Nat) (h : n < 256 ^ k) :
    pLE k (toLE n k ++ r) = some (r, n) := by
  rw [pLE_toLE, Nat.mod_eq_of_lt h]

theorem pTag_self (t r : List Nat) : pTag t (t ++ r) = some (r, ()) := by
  simp [pTag]

theorem pLE_short (k : Nat) (b : List Nat) (h : b.length < k) :
    pLE k b = none := by
  simp [pLE, pBytes]
  omega

theorem pBytes_short (k : Nat) (b : List Nat) (h : b.length < k) :
    pBytes k b = none := by
  simp [pBytes]
  omega

/-- On success, `pLE` consumed exactly `k` bytes. -/
theorem pLE_rest (k : Nat) (b rest : List Nat) (v : Nat)
    (h : pLE k b = some (rest, v)) : rest = b.drop k ∧ k ≤ b.length := by
  simp only [pLE, pBytes] at h
  by_cases hk : k ≤ b.length
  · simp [hk] at h
    exact ⟨h.1.symm, hk⟩
  · simp [hk] at h

/-! ### `document_file/src/meta.rs` — Footer, Index, Chunk -/

namespace DocumentFile

/-- `MAGIC_NUMBER = "PXLR"` as raw bytes. -/
def MAGIC : List Nat := [80, 88, 76, 82]

/-- `Footer` (meta.rs): the container format version. -/
structure Footer where
  version : Nat
deriving DecidableEq

/-- `Index` (meta.rs): one version trailer. -/
structure Index where
  hash : Nat
  root : Nat
  size : Nat
  prev_offset : Nat
deriving DecidableEq

/-- `vek` rectangle as used by `Chunk.rect`: position and extent, four u32. -/
structure Rect where
  x : Nat
  y : Nat
  w : Nat
  h : Nat
deriving DecidableEq

/-- `Chunk` (meta.rs): one serialized node record. -/
structure Chunk where
  id : Nat
  node : Nat
  offset : Nat
  size : Nat
  rect : Rect
  name : List Nat
  children : List Nat
  dependencies : List Nat
deriving DecidableEq

/-- Modelled from the spec: the UUID codec of the missing `document_file`
parser module — UUIDs are 16 raw bytes, no byte-swapping (§4.1/§6); a UUID
value is represented as the little-endian integer of those 16 bytes. -/
def uuidWrite (u : Nat) : List Nat := toLE u 16

/-- Modelled from the spec: UUID decode, 16 raw bytes (§4.1). -/
def uuidParse (b : List Nat) : Option (List Nat × Nat) := pLE 16 b

/-- Modelled from the spec: rectangle codec of the missing parser module,
four little-endian u32 values x, y, w, h (§4.1). -/
def rectWrite (r : Rect) : List Nat :=
  toLE r.x 4 ++ toLE r.y 4 ++ toLE r.w 4 ++ toLE r.h 4

/-- Modelled from the spec: rectangle decode (§4.1). -/
def rectParse (b : List Nat) : Option (List Nat × Rect) := do
  let (b, x) ← pLE 4 b
  let (b, y) ← pLE 4 b
  let (b, w) ← pLE 4 b
  let (b, h) ← pLE 4 b
  some (b, ⟨x, y, w, h⟩)

/-- Modelled from the spec: length-prefixed string codec of the missing
parser module — u32 byte length then the raw bytes (§4.1). -/
def strWrite (s : List Nat) : List Nat := toLE s.length 4 ++ s

/-- Modelled from the spec: length-prefixed string decode (§4.1); fails
with a recoverable `Truncated` error when fewer bytes remain than the
declared length. -/
def strParse (b : List Nat) : Option (List Nat × List Nat) := do
  let (b, len) ← pLE 4 b
  let (b, s) ← pBytes len b
  some (b, s)

/-- `nom::multi::many_m_n k k p`: run `p` exactly `k` times. -/
def pCount {α : Type} (k : Nat) (p : List Nat → Option (List Nat × α))
    (b : List Nat) : Option (List Nat × List α) :=
  match k with
  | 0 => some (b, [])
  | k + 1 => do
      let (b, v) ← p b
      let (b, vs) ← pCount k p b
      some (b, v :: vs)

/-- `Footer::parse` (meta.rs): `le_u8` version, then the `"PXLR"` tag. -/
def Footer.parse (b : List Nat) : Option (List Nat × Footer) := do
  let (b, version) ← pLE 1 b
  let (b, _) ← pTag MAGIC b
  some (b, ⟨version⟩)

/-- `Footer::write` (meta.rs): version byte, then the magic marker. -/
def Footer.write (f : Footer) : List Nat := toLE f.version 1 ++ MAGIC

/-- `Index::parse` (meta.rs): prev_offset(8) size(4) root(16) hash(16). -/
def Index.parse (b : List Nat) : Option (List Nat × Index) := do
  let (b, prev_offset) ← pLE 8 b
  let (b, size) ← pLE 4 b
  let (b, root) ← uuidParse b
  let (b, hash) ← uuidParse b
  some (b, ⟨hash, root, size, prev_offset⟩)

/-- `Index::write` (meta.rs): prev_offset(8) size(4) root(16) hash(16). -/
def Index.write (i : Index) : List Nat :=
  toLE i.prev_offset 8 ++ toLE i.size 4 ++ uuidWrite i.root ++ uuidWrite i.hash

/-- `Chunk::parse` (meta.rs): id, node kind, offset, size, rect, child and
dependency counts, name, then the child and dependency UUID runs. -/
def Chunk.parse (b : List Nat) : Option (List Nat × Chunk) := do
  let (b, id) ← uuidParse b
  let (b, node) ← pLE 2 b
  let (b, offset) ← pLE 8 b
  let (b, size) ← pLE 4 b
  let (b, rect) ← rectParse b
  let (b, child_count) ← pLE 4 b
  let (b, dep_count) ← pLE 4 b
  let (b, name) ← strParse b
  let (b, children) ← pCount child_count uuidParse b
  let (b, dependencies) ← pCount dep_count uuidParse b
  some (b, ⟨id, node, offset, size, rect, name, children, dependencies⟩)

/-- `Chunk::write` (meta.rs): same field order as `Chunk::parse`. -/
def Chunk.write (c : Chunk) : List Nat :=
  uuidWrite c.id ++ toLE c.node 2 ++ toLE c.offset 8 ++ toLE c.size 4 ++
    rectWrite c.rect ++ toLE c.children.length 4 ++ toLE c.dependencies.length 4 ++
    strWrite c.name ++ (c.children.map uuidWrite).flatten ++
    (c.dependencies.map uuidWrite).flatten

/-- Well-formedness: every numeric field fits its on-disk width (the Rust
field types `u16`/`u32`/`u64` and `Uuid` make these bounds implicit). -/
def Chunk.WF (c : Chunk) : Prop :=
  c.id < 256 ^ 16 ∧ c.node < 256 ^ 2 ∧ c.offset < 256 ^ 8 ∧ c.size < 256 ^ 4 ∧
    c.rect.x < 256 ^ 4 ∧ c.rect.y < 256 ^ 4 ∧ c.rect.w < 256 ^ 4 ∧
    c.rect.h < 256 ^ 4 ∧ c.name.length < 256 ^ 4 ∧
    c.children.length < 256 ^ 4 ∧ c.dependencies.length < 256 ^ 4 ∧
    (∀ u ∈ c.children, u < 256 ^ 16) ∧ ∀ u ∈ c.dependencies, u < 256 ^ 16

instance (c : Chunk) : Decidable c.WF := by
  unfold Chunk.WF
  infer_instance

theorem uuidParse_write (u : Nat) (r : List Nat) (h : u < 256 ^ 16) :
    uuidParse (uuidWrite u ++ r) = some (r, u) :=
  pLE_toLE_of_lt u 16 r h

theorem strParse_write (s r : List Nat) (h : s.length < 256 ^ 4) :
    strParse (strWrite s ++ r) = some (r, s) := by
  simp only [strParse, strWrite, List.append_assoc]
  rw [pLE_toLE_of_lt _ _ _ h]
  simp [pBytes_append]

theorem pCount_uuid (l : List Nat) (r : List Nat) (h : ∀ u ∈ l, u < 256 ^ 16) :
    pCount l.length uuidParse ((l.map uuidWrite).flatten ++ r) = some (r, l) := by
  induction l with
  | nil => simp [pCount]
  | cons u l ih =>
      have hu : u < 256 ^ 16 := h u (List.mem_cons_self u l)
      simp only [List.map_cons, List.flatten, List.length_cons, pCount,
        List.append_assoc, List.cons_append]
      rw [uuidParse_write u _ hu]
      simp only [Option.bind_eq_bind, Option.some_bind]
      rw [ih (fun v hv => h v (List.mem_cons_of_mem u hv))]
      rfl

theorem pTag_short (t b : List Nat) (h : b.length < t.length) :
    pTag t b = none := by
  simp only [pTag]
  rw [if_neg]
  intro heq
  have hl := congrArg List.length heq
  simp only [List.length_take] at hl
  omega

theorem Footer_parse_short (b : List Nat) (h : b.length < 5) :
    Footer.parse b = none := by
  simp only [Footer.parse, Option.bind_eq_bind]
  cases hp : pLE 1 b with
  | none => rfl
  | some p =>
      obtain ⟨b1, v⟩ := p
      obtain ⟨hdrop, hlen⟩ := pLE_rest 1 b b1 v hp
      have hb1 : b1.length < 4 := by
        subst hdrop
        simp only [List.length_drop]
        omega
      simp only [Option.some_bind]
      rw [pTag_short MAGIC b1 (by simpa [MAGIC] using hb1)]
      rfl

theorem Footer_parse_length (b r : List Nat) (f : Footer)
    (h : Footer.parse b = some (r, f)) : 5 ≤ b.length := by
  by_contra hc
  rw [Footer_parse_short b (by omega)] at h
  exact Option.noConfusion h

theorem Index_parse_length (b r : List Nat) (i : Index)
    (h : Index.parse b = some (r, i)) : 44 ≤ b.length := by
  simp only [Index.parse, uuidParse, Option.bind_eq_bind, Option.bind_eq_some] at h
  obtain ⟨⟨b1, v1⟩, hp1, h⟩ := h
  obtain ⟨⟨b2, v2⟩, hp2, h⟩ := h
  obtain ⟨⟨b3, v3⟩, hp3, h⟩ := h
  obtain ⟨⟨b4, v4⟩, hp4, h⟩ := h
  obtain ⟨hd1, hl1⟩ := pLE_rest 8 b b1 v1 hp1
  obtain ⟨hd2, hl2⟩ := pLE_rest 4 b1 b2 v2 hp2
  obtain ⟨hd3, hl3⟩ := pLE_rest 16 b2 b3 v3 hp3
  obtain ⟨hd4, hl4⟩ := pLE_rest 16 b3 b4 v4 hp4
  subst hd1 hd2 hd3
  simp only [List.length_drop] at hl2 hl3 hl4
  omega

theorem Index_parse_short (b : List Nat) (h : b.length < 44) :
    Index.parse b = none := by
  cases hp : Index.parse b with
  | none => rfl
  | some p =>
      obtain ⟨r, i⟩ := p
      have := Index_parse_length b r i hp
      omega

theorem rectParse_rest (b r : List Nat) (v : Rect)
    (h : rectParse b = some (r, v)) : r = b.drop 16 ∧ 16 ≤ b.length := by
  simp only [rectParse, Option.bind_eq_bind, Option.bind_eq_some] at h
  obtain ⟨⟨b1, v1⟩, hp1, h⟩ := h
  obtain ⟨⟨b2, v2⟩, hp2, h⟩ := h
  obtain ⟨⟨b3, v3⟩, hp3, h⟩ := h
  obtain ⟨⟨b4, v4⟩, hp4, h⟩ := h
  obtain ⟨hd1, hl1⟩ := pLE_rest 4 b b1 v1 hp1
  obtain ⟨hd2, hl2⟩ := pLE_rest 4 b1 b2 v2 hp2
  obtain ⟨hd3, hl3⟩ := pLE_rest 4 b2 b3 v3 hp3
  obtain ⟨hd4, hl4⟩ := pLE_rest 4 b3 b4 v4 hp4
  simp only [Option.some_inj, Prod.mk.injEq] at h
  subst hd1 hd2 hd3 hd4
  simp only [List.length_drop] at hl2 hl3 hl4 ⊢
  constructor
  · rw [← h.1]
    simp only [List.drop_drop]
  · omega

theorem strParse_length (b r s : List Nat)
    (h : strParse b = some (r, s)) : 4 ≤ b.length ∧ r.length + 4 ≤ b.length := by
  simp only [strParse, pBytes, Option.bind_eq_bind, Option.bind_eq_some] at h
  obtain ⟨⟨b1, len⟩, hp1, h⟩ := h
  obtain ⟨hd1, hl1⟩ := pLE_rest 4 b b1 len hp1
  by_cases hk : len ≤ b1.length
  · subst hd1
    simp only [hk, if_pos] at h
    obtain ⟨a, ha, har, has⟩ := h
    rw [Option.some_inj] at ha
    subst ha
    simp only [List.length_drop] at *
    omega
  · simp [hk] at h

theorem Chunk_parse_length (b r : List Nat) (c : Chunk)
    (h : Chunk.parse b = some (r, c)) : 58 ≤ b.length := by
  simp only [Chunk.parse, uuidParse, Option.bind_eq_bind, Option.bind_eq_some] at h
  obtain ⟨⟨b1, v1⟩, hp1, h⟩ := h
  obtain ⟨⟨b2, v2⟩, hp2, h⟩ := h
  obtain ⟨⟨b3, v3⟩, hp3, h⟩ := h
  obtain ⟨⟨b4, v4⟩, hp4, h⟩ := h
  obtain ⟨⟨b5, v5⟩, hp5, h⟩ := h
  obtain ⟨⟨b6, v6⟩, hp6, h⟩ := h
  obtain ⟨⟨b7, v7⟩, hp7, h⟩ := h
  obtain ⟨⟨b8, v8⟩, hp8, h⟩ := h
  obtain ⟨hd1, hl1⟩ := pLE_rest 16 b b1 v1 hp1
  obtain ⟨hd2, hl2⟩ := pLE_rest 2 b1 b2 v2 hp2
  obtain ⟨hd3, hl3⟩ := pLE_rest 8 b2 b3 v3 hp3
  obtain ⟨hd4, hl4⟩ := pLE_rest 4 b3 b4 v4 hp4
  obtain ⟨hd5, hl5⟩ := rectParse_rest b4 b5 v5 hp5
  obtain ⟨hd6, hl6⟩ := pLE_rest 4 b5 b6 v6 hp6
  obtain ⟨hd7, hl7⟩ := pLE_rest 4 b6 b7 v7 hp7
  obtain ⟨hs8a, hs8b⟩ := strParse_length b7 b8 v8 hp8
  subst hd1 hd2 hd3 hd4 hd5 hd6 hd7
  simp only [List.length_drop] at *
  omega

theorem Chunk_parse_short (b : List Nat) (h : b.length < 58) :
    Chunk.parse b = none := by
  cases hp : Chunk.parse b with
  | none => rfl
  | some p =>
      obtain ⟨r, c⟩ := p
      have := Chunk_parse_length b r c hp
      omega

theorem pCount_uuid_rest (k : Nat) (b r : List Nat) (l : List Nat)
    (h : pCount k uuidParse b = some (r, l)) :
    l.length = k ∧ r.length + 16 * k = b.length := by
  induction k generalizing b l with
  | zero =>
      simp only [pCount, Option.some_inj, Prod.mk.injEq] at h
      obtain ⟨h1, h2⟩ := h
      subst h1 h2
      simp
  | succ k ih =>
      simp only [pCount, Option.bind_eq_bind, Option.bind_eq_some] at h
      obtain ⟨⟨b1, v1⟩, hp1, h⟩ := h
      obtain ⟨⟨b2, vs⟩, hp2, h⟩ := h
      simp only [Option.some_inj, Prod.mk.injEq] at h
      obtain ⟨hr, hl⟩ := h
      subst hr hl
      obtain ⟨hd1, hl1⟩ := pLE_rest 16 b b1 v1 hp1
      obtain ⟨ha, hb⟩ := ih b1 vs hp2
      subst hd1
      simp only [List.length_drop] at hb
      constructor
      · simp [ha]
      · omega

theorem strParse_exact (b r s : List Nat)
    (h : strParse b = some (r, s)) : r.length + 4 + s.length = b.length := by
  simp only [strParse, pBytes, Option.bind_eq_bind, Option.bind_eq_some] at h
  obtain ⟨⟨b1, len⟩, hp1, h⟩ := h
  obtain ⟨hd1, hl1⟩ := pLE_rest 4 b b1 len hp1
  by_cases hk : len ≤ b1.length
  · subst hd1
    simp only [hk, if_pos] at h
    obtain ⟨a, ha, har, has⟩ := h
    rw [Option.some_inj] at ha
    subst ha
    simp only [List.length_drop, List.length_take] at *
    omega
  · simp [hk] at h

/-- Exact consumption for `Chunk::parse`: a successful parse consumes
precisely the 58 fixed bytes plus the declared name length and the
declared child/dependency UUID runs. -/
theorem Chunk_parse_exact (b r : List Nat) (c : Chunk)
    (h : Chunk.parse b = some (r, c)) :
    b.length = r.length + 58 + c.name.length +
      16 * (c.children.length + c.dependencies.length) := by
  simp only [Chunk.parse, uuidParse, Option.bind_eq_bind, Option.bind_eq_some] at h
  obtain ⟨⟨b1, v1⟩, hp1, h⟩ := h
  obtain ⟨⟨b2, v2⟩, hp2, h⟩ := h
  obtain ⟨⟨b3, v3⟩, hp3, h⟩ := h
  obtain ⟨⟨b4, v4⟩, hp4, h⟩ := h
  obtain ⟨⟨b5, v5⟩, hp5, h⟩ := h
  obtain ⟨⟨b6, v6⟩, hp6, h⟩ := h
  obtain ⟨⟨b7, v7⟩, hp7, h⟩ := h
  obtain ⟨⟨b8, v8⟩, hp8, h⟩ := h
  obtain ⟨⟨b9, v9⟩, hp9, h⟩ := h
  obtain ⟨⟨b10, v10⟩, hp10, h⟩ := h
  simp only [Option.some_inj, Prod.mk.injEq] at h
  obtain ⟨hr, hc⟩ := h
  subst hr
  subst hc
  obtain ⟨hd1, hl1⟩ := pLE_rest 16 b b1 v1 hp1
  obtain ⟨hd2, hl2⟩ := pLE_rest 2 b1 b2 v2 hp2
  obtain ⟨hd3, hl3⟩ := pLE_rest 8 b2 b3 v3 hp3
  obtain ⟨hd4, hl4⟩ := pLE_rest 4 b3 b4 v4 hp4
  obtain ⟨hd5, hl5⟩ := rectParse_rest b4 b5 v5 hp5
  obtain ⟨hd6, hl6⟩ := pLE_rest 4 b5 b6 v6 hp6
  obtain ⟨hd7, hl7⟩ := pLE_rest 4 b6 b7 v7 hp7
  have hs8 := strParse_exact b7 b8 v8 hp8
  obtain ⟨hc9, hl9⟩ := pCount_uuid_rest v6 b8 b9 v9 hp9
  obtain ⟨hc10, hl10⟩ := pCount_uuid_rest v7 b9 b10 v10 hp10
  subst hd1 hd2 hd3 hd4 hd5 hd6 hd7
  simp only [List.length_drop] at *
  omega

theorem rectParse_write (r : Rect) (rest : List Nat)
    (hx : r.x < 256 ^ 4) (hy : r.y < 256 ^ 4) (hw : r.w < 256 ^ 4)
    (hh : r.h < 256 ^ 4) :
    rectParse (rectWrite r ++ rest) = some (rest, r) := by
  simp only [rectParse, rectWrite, List.append_assoc, Option.bind_eq_bind]
  rw [pLE_toLE_of_lt _ _ _ hx]
  simp only [Option.some_bind]
  rw [pLE_toLE_of_lt _ _ _ hy]
  simp only [Option.some_bind]
  rw [pLE_toLE_of_lt _ _ _ hw]
  simp only [Option.some_bind]
  rw [pLE_toLE_of_lt _ _ _ hh]
  rfl

theorem Footer_parse_write (f : Footer) (extra : List Nat)
    (h : f.version < 256) :
    Footer.parse (Footer.write f ++ extra) = some (extra, f) := by
  simp only [Footer.parse, Footer.write, List.append_assoc, Option.bind_eq_bind]
  rw [pLE_toLE_of_lt _ _ _ (by simpa using h)]
  simp only [Option.some_bind]
  rw [pTag_self]
  rfl

theorem Index_parse_write (i : Index) (extra : List Nat)
    (hp : i.prev_offset < 256 ^ 8) (hs : i.size < 256 ^ 4)
    (hr : i.root < 256 ^ 16) (hh : i.hash < 256 ^ 16) :
    Index.parse (Index.write i ++ extra) = some (extra, i) := by
  simp only [Index.parse, Index.write, uuidParse, uuidWrite, List.append_assoc,
    Option.bind_eq_bind]
  rw [pLE_toLE_of_lt _ _ _ hp]
  simp only [Option.some_bind]
  rw [pLE_toLE_of_lt _ _ _ hs]
  simp only [Option.some_bind]
  rw [pLE_toLE_of_lt _ _ _ hr]
  simp only [Option.some_bind]
  rw [pLE_toLE_of_lt _ _ _ hh]
  rfl

theorem Chunk_parse_write (c : Chunk) (extra : List Nat) (h : c.WF) :
    Chunk.parse (Chunk.write c ++ extra) = some (extra, c) := by
  obtain ⟨h1, h2, h3, h4, h5, h6, h7, h8, h9, h10, h11, h12, h13⟩ := h
  simp only [Chunk.parse, Chunk.write, uuidParse, uuidWrite, List.append_assoc,
    Option.bind_eq_bind]
  rw [pLE_toLE_of_lt _ _ _ h1]
  simp only [Option.some_bind]
  rw [pLE_toLE_of_lt _ _ _ h2]
  simp only [Option.some_bind]
  rw [pLE_toLE_of_lt _ _ _ h3]
  simp only [Option.some_bind]
  rw [pLE_toLE_of_lt _ _ _ h4]
  simp only [Option.some_bind]
  rw [show rectWrite c.rect ++ (toLE c.children.length 4 ++ (toLE c.dependencies.length 4 ++
        (strWrite c.name ++ ((c.children.map uuidWrite).flatten ++
          ((c.dependencies.map uuidWrite).flatten ++ extra))))) =
      rectWrite c.rect ++ (toLE c.children.length 4 ++ (toLE c.dependencies.length 4 ++
        (strWrite c.name ++ ((c.children.map uuidWrite).flatten ++
          ((c.dependencies.map uuidWrite).flatten ++ extra))))) from rfl]
  rw [rectParse_write c.rect _ h5 h6 h7 h8]
  simp only [Option.some_bind]
  rw [pLE_toLE_of_lt _ _ _ h10]
  simp only [Option.some_bind]
  rw [pLE_toLE_of_lt _ _ _ h11]
  simp only [Option.some_bind]
  rw [strParse_write _ _ h9]
  simp only [Option.some_bind]
  rw [pCount_uuid _ _ h12]
  simp only [Option.some_bind]
  rw [pCount_uuid _ _ h13]
  rfl

end DocumentFile

/-- C7: each of `Footer::parse`, `Index::parse`, `Chunk::parse` on any input
either succeeds or returns a recoverable error value (modelled as an
`Option`, `none` being the `nom` error — no panic path exists); when fewer
bytes remain than the fixed fields and magic marker require the parse
fails, and a successful `Chunk::parse` consumed exactly the bytes its
declared lengths (name length, child count, dependency count) call for,
so a shorter input cannot succeed. -/
theorem C7_parsers_fail_recoverably_on_truncation : ∀ b : List Nat,
    ((∃ r f, DocumentFile.Footer.parse b = some (r, f)) ∨
      DocumentFile.Footer.parse b = none) ∧
    (b.length < 5 → DocumentFile.Footer.parse b = none) ∧
    ((∃ r i, DocumentFile.Index.parse b = some (r, i)) ∨
      DocumentFile.Index.parse b = none) ∧
    (b.length < 44 → DocumentFile.Index.parse b = none) ∧
    ((∃ r c, DocumentFile.Chunk.parse b = some (r, c)) ∨
      DocumentFile.Chunk.parse b = none) ∧
    (b.length < 58 → DocumentFile.Chunk.parse b = none) ∧
    (∀ r c, DocumentFile.Chunk.parse b = some (r, c) →
      b.length = r.length + 58 + c.name.length +
        16 * (c.children.length + c.dependencies.length)) := by
  intro b
  refine ⟨?_, DocumentFile.Footer_parse_short b, ?_,
    DocumentFile.Index_parse_short b, ?_, DocumentFile.Chunk_parse_short b,
    fun r c h => DocumentFile.Chunk_parse_exact b r c h⟩
  · cases h : DocumentFile.Footer.parse b with
    | none => exact Or.inr rfl
    | some p =>
        obtain ⟨r, v⟩ := p
        exact Or.inl ⟨r, v, rfl⟩
  · cases h : DocumentFile.Index.parse b with
    | none => exact Or.inr rfl
    | some p =>
        obtain ⟨r, v⟩ := p
        exact Or.inl ⟨r, v, rfl⟩
  · cases h : DocumentFile.Chunk.parse b with
    | none => exact Or.inr rfl
    | some p =>
        obtain ⟨r, v⟩ := p
        exact Or.inl ⟨r, v, rfl⟩

/-- Witness for C7 at the concrete empty input. -/
theorem C7_parsers_fail_recoverably_on_truncation_witness :
    DocumentFile.Footer.parse [] = none ∧
    DocumentFile.Index.parse [] = none ∧
    DocumentFile.Chunk.parse [] = none :=
  ⟨(C7_parsers_fail_recoverably_on_truncation []).2.1 (by decide),
    (C7_parsers_fail_recoverably_on_truncation []).2.2.2.1 (by decide),
    (C7_parsers_fail_recoverably_on_truncation []).2.2.2.2.2.1 (by decide)⟩

/-- C8: parsing the bytes produced by `write` recovers the original value
and consumes exactly the written bytes (any appended suffix is returned
untouched), for `Footer`, `Index` (given the Rust integer-width bounds)
and `Chunk` (given its counts fit in u32, `Chunk.WF`); and the emitted
byte layout follows the container grammar: Index as
previous_offset(8) table_size(4) root(16) hash(16), Footer as
format_version(1) followed by the literal "PXLR" bytes, all integers
little-endian. -/
theorem C8_write_parse_roundtrip :
    (∀ (f : DocumentFile.Footer) (extra : List Nat), f.version < 256 →
      DocumentFile.Footer.parse (DocumentFile.Footer.write f ++ extra) =
        some (extra, f)) ∧
    (∀ (i : DocumentFile.Index) (extra : List Nat),
      i.prev_offset < 256 ^ 8 → i.size < 256 ^ 4 → i.root < 256 ^ 16 →
      i.hash < 256 ^ 16 →
      DocumentFile.Index.parse (DocumentFile.Index.write i ++ extra) =
        some (extra, i)) ∧
    (∀ (c : DocumentFile.Chunk) (extra : List Nat), c.WF →
      DocumentFile.Chunk.parse (DocumentFile.Chunk.write c ++ extra) =
        some (extra, c)) ∧
    (∀ i : DocumentFile.Index, DocumentFile.Index.write i =
      toLE i.prev_offset 8 ++ toLE i.size 4 ++ toLE i.root 16 ++
        toLE i.hash 16) ∧
    (∀ f : DocumentFile.Footer, DocumentFile.Footer.write f =
      toLE f.version 1 ++ [80, 88, 76, 82]) :=
  ⟨DocumentFile.Footer_parse_write,
    fun i extra hp hs hr hh => DocumentFile.Index_parse_write i extra hp hs hr hh,
    fun c extra h => DocumentFile.Chunk_parse_write c extra h,
    fun _ => rfl, fun _ => rfl⟩

/-- Witness for C8 at concrete values. -/
theorem C8_write_parse_roundtrip_witness :
    DocumentFile.Footer.parse
        (DocumentFile.Footer.write ⟨0⟩ ++ [9, 9]) = some ([9, 9], ⟨0⟩) ∧
    DocumentFile.Index.parse
        (DocumentFile.Index.write ⟨7, 6, 5, 4⟩ ++ [1]) = some ([1], ⟨7, 6, 5, 4⟩) ∧
    DocumentFile.Chunk.parse
        (DocumentFile.Chunk.write
          ⟨1, 2, 3, 4, ⟨5, 6, 7, 8⟩, [77, 78], [9], [10, 11]⟩ ++ [0]) =
      some ([0], ⟨1, 2, 3, 4, ⟨5, 6, 7, 8⟩, [77, 78], [9], [10, 11]⟩) :=
  ⟨C8_write_parse_roundtrip.1 ⟨0⟩ [9, 9] (by decide),
    C8_write_parse_roundtrip.2.1 ⟨7, 6, 5, 4⟩ [1] (by decide) (by decide)
      (by decide) (by decide),
    C8_write_parse_roundtrip.2.2.1 _ [0] (by decide)⟩

/-! ### `document/src/node/mod.rs` — the `NodeKind` discriminant codec -/

/-- `NodeKind` (node/mod.rs): the closed set of node kinds. -/
inductive NodeKind where
  | note
  | group
  | palette
  | canvasGroup
  | canvas
deriving DecidableEq

/-- The u16 discriminant emitted by `NodeKind::write` (node/mod.rs). -/
def NodeKind.discr : NodeKind → Nat
  | .group => 0
  | .note => 1
  | .palette => 2
  | .canvasGroup => 3
  | .canvas => 4

/-- `NodeKind::parse` (node/mod.rs): `le_u16` discriminant; 0..=4 map to
Group, Note, Palette, CanvasGroup, Canvas; any other value is a
recoverable `nom` error (`ErrorKind::NoneOf`). -/
def NodeKind.parse (b : List Nat) : Option (List Nat × NodeKind) := do
  let (b, idx) ← pLE 2 b
  match idx with
  | 0 => some (b, NodeKind.group)
  | 1 => some (b, NodeKind.note)
  | 2 => some (b, NodeKind.palette)
  | 3 => some (b, NodeKind.canvasGroup)
  | 4 => some (b, NodeKind.canvas)
  | _ => none

/-- `NodeKind::write` (node/mod.rs): the discriminant as little-endian u16. -/
def NodeKind.write (k : NodeKind) : List Nat := toLE k.discr 2

/-- C10: `NodeKind::parse` succeeds exactly on inputs with at least two
bytes whose little-endian u16 value is below 5, maps that value through
0 ↦ Group, 1 ↦ Note, 2 ↦ Palette, 3 ↦ CanvasGroup, 4 ↦ Canvas (the
inverse of `NodeKind::write`), and returns a recoverable error — not a
panic — on every other discriminant. -/
theorem C10_nodekind_parse_inverse_of_write :
    (∀ b : List Nat, (∃ r k, NodeKind.parse b = some (r, k)) ↔
      2 ≤ b.length ∧ fromLE (b.take 2) < 5) ∧
    (∀ (b r : List Nat) (k : NodeKind), NodeKind.parse b = some (r, k) →
      r = b.drop 2 ∧ fromLE (b.take 2) = k.discr) ∧
    (∀ (k : NodeKind) (rest : List Nat),
      NodeKind.parse (NodeKind.write k ++ rest) = some (rest, k)) ∧
    (∀ b : List Nat, 2 ≤ b.length → 5 ≤ fromLE (b.take 2) →
      NodeKind.parse b = none) := by
  have hstep : ∀ b : List Nat, 2 ≤ b.length →
      pLE 2 b = some (b.drop 2, fromLE (b.take 2)) := by
    intro b hb
    simp [pLE, pBytes, hb]
  refine ⟨?_, ?_, ?_, ?_⟩
  · intro b
    constructor
    · rintro ⟨r, k, h⟩
      simp only [NodeKind.parse, Option.bind_eq_bind, Option.bind_eq_some] at h
      obtain ⟨⟨b1, idx⟩, hp, h⟩ := h
      obtain ⟨hd, hl⟩ := pLE_rest 2 b b1 idx hp
      have hv : fromLE (b.take 2) = idx := by
        rw [hstep b hl] at hp
        exact (Prod.mk.injEq _ _ _ _ ▸ Option.some_inj.mp hp).2
      refine ⟨hl, ?_⟩
      rw [hv]
      match idx, h with
      | 0, _ => omega
      | 1, _ => omega
      | 2, _ => omega
      | 3, _ => omega
      | 4, _ => omega
      | n + 5, h => simp at h
    · rintro ⟨hl, hv⟩
      simp only [NodeKind.parse, Option.bind_eq_bind, hstep b hl, Option.some_bind]
      match hm : fromLE (b.take 2), hv with
      | 0, _ => exact ⟨_, _, rfl⟩
      | 1, _ => exact ⟨_, _, rfl⟩
      | 2, _ => exact ⟨_, _, rfl⟩
      | 3, _ => exact ⟨_, _, rfl⟩
      | 4, _ => exact ⟨_, _, rfl⟩
  · intro b r k h
    simp only [NodeKind.parse, Option.bind_eq_bind, Option.bind_eq_some] at h
    obtain ⟨⟨b1, idx⟩, hp, h⟩ := h
    obtain ⟨hd, hl⟩ := pLE_rest 2 b b1 idx hp
    have hv : fromLE (b.take 2) = idx := by
      rw [hstep b hl] at hp
      exact (Prod.mk.injEq _ _ _ _ ▸ Option.some_inj.mp hp).2
    subst hd
    match idx, h with
    | 0, h =>
        simp only [Option.some_inj, Prod.mk.injEq] at h
        exact ⟨h.1.symm, by rw [hv, ← h.2]; rfl⟩
    | 1, h =>
        simp only [Option.some_inj, Prod.mk.injEq] at h
        exact ⟨h.1.symm, by rw [hv, ← h.2]; rfl⟩
    | 2, h =>
        simp only [Option.some_inj, Prod.mk.injEq] at h
        exact ⟨h.1.symm, by rw [hv, ← h.2]; rfl⟩
    | 3, h =>
        simp only [Option.some_inj, Prod.mk.injEq] at h
        exact ⟨h.1.symm, by rw [hv, ← h.2]; rfl⟩
    | 4, h =>
        simp only [Option.some_inj, Prod.mk.injEq] at h
        exact ⟨h.1.symm, by rw [hv, ← h.2]; rfl⟩
    | n + 5, h => simp at h
  · intro k rest
    have : k.discr < 256 ^ 2 := by cases k <;> decide
    simp only [NodeKind.parse, NodeKind.write, Option.bind_eq_bind,
      pLE_toLE_of_lt _ _ _ this, Option.some_bind]
    cases k <;> rfl
  · intro b hl hv
    simp only [NodeKind.parse, Option.bind_eq_bind, hstep b hl, Option.some_bind]
    match hm : fromLE (b.take 2), hv with
    | n + 5, _ => rfl

/-- Witness for C10 at concrete inputs. -/
theorem C10_nodekind_parse_inverse_of_write_witness :
    NodeKind.parse (NodeKind.write NodeKind.palette ++ [3]) =
      some ([3], NodeKind.palette) ∧
    NodeKind.parse [9, 0] = none :=
  ⟨C10_nodekind_parse_inverse_of_write.2.2.1 NodeKind.palette [3],
    C10_nodekind_parse_inverse_of_write.2.2.2 [9, 0] (by decide) (by decide)⟩

/-! ### `document/src/file.rs` — the version-0 partition file engine

The `parser` module of the `document` crate (`Header`, `v0::PartitionTable`,
`v0::PartitionTableRow`, `v0::PartitionIndex` and the concrete `Group` node
codec) is not under `src/`; those parts are modelled from the spec, as
marked on each definition.  Everything else (`File::empty/from/write/append/
write_partition/get_node`, the `Note` codec) is embedded from the source. -/

namespace V0

/-- The seekable byte sink (`S : io::Read + io::Write + io::Seek`), an
`io::Cursor<Vec<u8>>`-style in-memory storage: content plus cursor. -/
structure Storage where
  data : List Nat
  pos : Nat
deriving DecidableEq

/-- `seek(SeekFrom::Start(o))`. -/
def Storage.seekStart (s : Storage) (o : Nat) : Storage := ⟨s.data, o⟩

/-- `seek(SeekFrom::End(0))`. -/
def Storage.seekEnd (s : Storage) : Storage := ⟨s.data, s.data.length⟩

/-- `seek(SeekFrom::End(-k))`: an `io` error when the sink is shorter
than `k` bytes (seeking before byte zero). -/
def Storage.seekEndNeg (s : Storage) (k : Nat) : Option Storage :=
  if k ≤ s.data.length then some ⟨s.data, s.data.length - k⟩ else none

/-- `read(&mut buf)` into a zero-initialised buffer of length `n`: reads
`min n remaining` bytes at the cursor; the tail of the buffer keeps its
zero fill (the source ignores the returned byte count). -/
def Storage.readBuf (s : Storage) (n : Nat) : Storage × List Nat :=
  let got := (s.data.drop s.pos).take n
  (⟨s.data, s.pos + got.length⟩, got ++ List.replicate (n - got.length) 0)

/-- `write_all(bytes)`: overwrite at the cursor, extending the sink as
needed (zero fill for a cursor beyond the end, `Cursor` semantics). -/
def Storage.writeAll (s : Storage) (bytes : List Nat) : Storage :=
  ⟨s.data.take s.pos ++ List.replicate (s.pos - s.data.length) 0 ++ bytes ++
      s.data.drop (s.pos + bytes.length),
    s.pos + bytes.length⟩

/-- `FileStorageError` (file.rs). -/
inductive FileStorageError where
  | unknown
  | versionNotSupported
  | nodeNotSupported
  | parseError
deriving DecidableEq

/-- Outcome of a fallible Rust call: `ok`/`err` are the two sides of the
returned `Result`; `fatal` is a `panic!` escaping the function. -/
inductive RResult (α : Type) where
  | ok (val : α)
  | err (e : FileStorageError)
  | fatal (e : FileStorageError)
deriving DecidableEq

/-- `parser::Header` of the document crate. -/
structure Header where
  version : Nat
deriving DecidableEq

/-- Modelled from the spec: the container marker and format version that
`File::from` reads from the first five bytes (the Container Footer fields
of spec §3 in the header-first variant used by file.rs, byte order fixed
by the unit-test bytes `50 58 4C 52 00`): the literal "PXLR" then the
`format_version` byte. -/
def Header.write (h : Header) : List Nat := [80, 88, 76, 82] ++ toLE h.version 1

/-- Modelled from the spec: `Header::parse` — magic marker then version
byte; a missing or mismatched marker is a recoverable parse error. -/
def Header.parse (b : List Nat) : Option (List Nat × Header) := do
  let (b, _) ← pTag [80, 88, 76, 82] b
  let (b, v) ← pLE 1 b
  some (b, ⟨v⟩)

/-- `parser::v0::ChunkType`, restricted to the node kinds whose codecs
are under `src/` (`Group`, `Note`). -/
inductive ChunkType where
  | group
  | note
deriving DecidableEq

/-- Modelled from the spec: the small integer discriminant of a chunk
type (spec §3 `kind`). -/
def ctDiscr : ChunkType → Nat
  | .group => 0
  | .note => 1

/-- `parser::v0::PartitionTableRow`, fields as constructed in note.rs:
identifier, chunk type, payload byte range, flags, position, extent,
display name, child row indices, preview bytes. -/
structure PartitionTableRow where
  id : Nat
  chunk_type : ChunkType
  chunk_offset : Nat
  chunk_size : Nat
  is_root : Bool
  is_visible : Bool
  is_locked : Bool
  is_folded : Bool
  position : Nat × Nat
  extent : Nat × Nat
  name : List Nat
  children : List Nat
  preview : List Nat
deriving DecidableEq

/-- `parser::v0::PartitionTable`: content hash and chunk-table byte size.
The on-disk order (size u32 then hash 16 bytes) is fixed by the
`it_reads_empty_file` unit-test bytes. -/
structure PartitionTable where
  hash : Nat
  size : Nat
deriving DecidableEq

/-- Modelled from the spec: `PartitionTable::write` — size(4) hash(16),
little-endian (§4.1), order fixed by the unit-test bytes. -/
def tableWrite (t : PartitionTable) : List Nat := toLE t.size 4 ++ toLE t.hash 16

/-- Modelled from the spec: `PartitionTable::parse`. -/
def tableParse (b : List Nat) : Option (List Nat × PartitionTable) := do
  let (b, size) ← pLE 4 b
  let (b, hash) ← pLE 16 b
  some (b, ⟨hash, size⟩)

/-- A single byte for a boolean flag. -/
def boolByte (v : Bool) : List Nat := [if v then 1 else 0]

/-- Parse a boolean flag byte (nonzero is true). -/
def pBool (b : List Nat) : Option (List Nat × Bool) :=
  (pLE 1 b).map (fun p => (p.1, p.2 != 0))

/-- Modelled from the spec: `PartitionTableRow::write` (missing parser
module) using the §4.1 primitives — id(16) kind(2) offset(8) size(4)
four flag bytes, position (two u32), extent (two u32), length-prefixed
name, u32-count-prefixed child indices (u32 each), u32-length-prefixed
preview bytes. -/
def rowWrite (r : PartitionTableRow) : List Nat :=
  toLE r.id 16 ++ toLE (ctDiscr r.chunk_type) 2 ++ toLE r.chunk_offset 8 ++
    toLE r.chunk_size 4 ++ boolByte r.is_root ++ boolByte r.is_visible ++
    boolByte r.is_locked ++ boolByte r.is_folded ++ toLE r.position.1 4 ++
    toLE r.position.2 4 ++ toLE r.extent.1 4 ++ toLE r.extent.2 4 ++
    DocumentFile.strWrite r.name ++ toLE r.children.length 4 ++
    (r.children.map (toLE · 4)).flatten ++ toLE r.preview.length 4 ++ r.preview

/-- Chunk-type of a discriminant; out-of-range values are a recoverable
error. -/
def ctOfNat : Nat → Option ChunkType
  | 0 => some .group
  | 1 => some .note
  | _ + 2 => none

/-- Modelled from the spec: `PartitionTableRow::parse`, mirror of
`rowWrite`; an out-of-range kind discriminant is a recoverable error. -/
def rowParse (b : List Nat) : Option (List Nat × PartitionTableRow) :=
  match pLE 16 b with
  | none => none
  | some (b, id) =>
  match pLE 2 b with
  | none => none
  | some (b, ct) =>
  match pLE 8 b with
  | none => none
  | some (b, chunk_offset) =>
  match pLE 4 b with
  | none => none
  | some (b, chunk_size) =>
  match pBool b with
  | none => none
  | some (b, is_root) =>
  match pBool b with
  | none => none
  | some (b, is_visible) =>
  match pBool b with
  | none => none
  | some (b, is_locked) =>
  match pBool b with
  | none => none
  | some (b, is_folded) =>
  match pLE 4 b with
  | none => none
  | some (b, px) =>
  match pLE 4 b with
  | none => none
  | some (b, py) =>
  match pLE 4 b with
  | none => none
  | some (b, ex) =>
  match pLE 4 b with
  | none => none
  | some (b, ey) =>
  match DocumentFile.strParse b with
  | none => none
  | some (b, name) =>
  match pLE 4 b with
  | none => none
  | some (b, childCount) =>
  match DocumentFile.pCount childCount (pLE 4) b with
  | none => none
  | some (b, children) =>
  match pLE 4 b with
  | none => none
  | some (b, prevCount) =>
  match pBytes prevCount b with
  | none => none
  | some (b, preview) =>
  match ctOfNat ct with
  | none => none
  | some k =>
      some (b, ⟨id, k, chunk_offset, chunk_size, is_root, is_visible,
        is_locked, is_folded, (px, py), (ex, ey), name, children, preview⟩)

/-- Association-list model of the `HashMap<Uuid, usize>` `index_uuid`:
lookup by key. -/
def lookupIdx (m : List (Nat × Nat)) (id : Nat) : Option Nat :=
  (m.find? (fun p => p.1 == id)).map Prod.snd

/-- `HashMap::insert` (replacing any previous binding). -/
def mapInsert (m : List (Nat × Nat)) (id v : Nat) : List (Nat × Nat) :=
  (id, v) :: m.filter (fun p => p.1 != id)

/-- `parser::v0::PartitionIndex`: table, rows, and the id → row-position
lookup. -/
structure PartitionIndex where
  table : PartitionTable
  rows : List PartitionTableRow
  index_uuid : List (Nat × Nat)
deriving DecidableEq

/-- Modelled from the spec: `PartitionIndex::new(table, rows)` builds the
identifier → Chunk Record position lookup of §4.4 from the rows. -/
def PartitionIndex.new (table : PartitionTable) (rows : List PartitionTableRow) :
    PartitionIndex :=
  ⟨table, rows, (rows.enum.foldl (fun m p => mapInsert m p.2.id p.1) [])⟩

/-- The in-memory node tree (`Node` of the document crate), restricted to
the kinds whose v0 codecs exist in `src/`: `Group` (group.rs) and `Note`
(note.rs).  Positions are `Vec2<f32>` in the source; they are carried
here as the pair of 32-bit patterns that the codec stores and reloads. -/
inductive Node where
  | note (id : Nat) (is_visible is_locked : Bool) (text : List Nat)
      (position : Nat × Nat)
  | group (id : Nat) (name : List Nat) (position : Nat × Nat)
      (children : List Node)

/-- `Node::id()` (node.rs). -/
def Node.nid : Node → Nat
  | .note id _ _ _ _ => id
  | .group id _ _ _ => id

mutual

/-- `PartitionTableParse::write` for `Node` (node.rs dispatch): the `Note`
arm is note.rs's `write` verbatim — record the cursor offset, update the
existing row for this id or append a fresh row and register it in
`index_uuid`, write no payload bytes, return 0.  The `Group` arm is
modelled from the spec (the concrete group codec is not under src/):
§4.2 depth-first post-order — encode the children first, then register
one record whose `children` sequence lists each child's row index in
order (row indices, as `File::write_partition`'s `usize` cast requires).
`none` models a panicking `unwrap`. -/
def writeNode : PartitionIndex → Storage → Node → Option (PartitionIndex × Storage × Nat)
  | index, st, .note id vis lock text pos =>
      let offset := st.pos
      match lookupIdx index.index_uuid id with
      | some i =>
          match index.rows.get? i with
          | none => none
          | some row =>
              let row2 := { row with
                chunk_offset := offset, chunk_size := 0,
                is_visible := vis, is_locked := lock, position := pos,
                name := text }
              some ({ index with rows := index.rows.set i row2 }, st, 0)
      | none =>
          some ({ index with
              index_uuid := mapInsert index.index_uuid id index.rows.length,
              rows := index.rows ++ [⟨id, .note, offset, 0, false, vis, lock,
                false, pos, (0, 0), text, [], []⟩] }, st, 0)
  | index, st, .group id name pos children => do
      let (index, st, cidx, n) ← writeChildren index st children
      let offset := st.pos
      match lookupIdx index.index_uuid id with
      | some i =>
          match index.rows.get? i with
          | none => none
          | some row =>
              let row2 := { row with
                chunk_offset := offset, chunk_size := 0,
                position := pos, name := name, children := cidx }
              some ({ index with rows := index.rows.set i row2 }, st, n)
      | none =>
          some ({ index with
              index_uuid := mapInsert index.index_uuid id index.rows.length,
              rows := index.rows ++ [⟨id, .group, offset, 0, false, true, false,
                false, pos, (0, 0), name, cidx, []⟩] }, st, n)

/-- Encode a group's children in order, collecting each child's row index
from `index_uuid` right after its write. -/
def writeChildren : PartitionIndex → Storage → List Node →
    Option (PartitionIndex × Storage × List Nat × Nat)
  | index, st, [] => some (index, st, [], 0)
  | index, st, c :: cs => do
      let (index, st, n1) ← writeNode index st c
      match lookupIdx index.index_uuid c.nid with
      | none => none
      | some ci => do
          let (index, st, rest, n2) ← writeChildren index st cs
          some (index, st, ci :: rest, n1 + n2)

end

/-- Largest `children` count over the rows (used to size the traversal
fuel). -/
def maxChildren (rows : List PartitionTableRow) : Nat :=
  rows.foldr (fun r acc => max r.children.length acc) 0

/-- Fuel that provably suffices for the reachability loop on any table
whose child edges point to strictly smaller row indices (every table the
writer builds). -/
def partFuel (rows : List PartitionTableRow) : Nat :=
  (maxChildren rows + 2) ^ (rows.length + 1) + 1

/-- The worklist loop of `File::write_partition` (file.rs lines 114-125):
pop a row index, mark it in the bit vector, push its children.  `none`
models an abnormal execution: a panicking out-of-range `BitVec` index, or
fuel exhaustion (the source loops forever on a cyclic corrupt table). -/
def visitLoop (rows : List PartitionTableRow) :
    Nat → List Nat → List Bool → Option (List Bool)
  | 0, _, _ => none
  | _ + 1, [], marks => some marks
  | f + 1, i :: stack, marks =>
      if i < marks.length then
        let marks := marks.set i true
        match rows.get? i with
        | some row => visitLoop rows f (row.children.reverse ++ stack) marks
        | none => visitLoop rows f stack marks
      else none

/-- `File` (file.rs): header plus partition index. -/
structure File where
  header : Header
  index : PartitionIndex
deriving DecidableEq

/-- `File::empty(hash)` (file.rs). -/
def File.empty (hash : Nat) : File :=
  ⟨⟨0⟩, PartitionIndex.new ⟨hash, 0⟩ []⟩

/-- `File::write_partition` (file.rs): look up the root's row index
(`unwrap` — `none` models the panic), run the reachability loop from it,
keep exactly the marked rows (in order), serialize them at the cursor,
then the table (whose `size` is the rows' byte length as u32).
`index_uuid` is left untouched by the source. -/
def write_partition (file : File) (st : Storage) (node : Node) :
    Option (File × Storage × Nat) :=
  match lookupIdx file.index.index_uuid node.nid with
  | none => none
  | some rootIdx =>
      match visitLoop file.index.rows (partFuel file.index.rows) [rootIdx]
          (List.replicate file.index.rows.length false) with
      | none => none
      | some marks =>
          let rows := (file.index.rows.enum.filter
            (fun p => marks.getD p.1 false)).map Prod.snd
          let rowBytes := (rows.map rowWrite).flatten
          let st := st.writeAll rowBytes
          let table : PartitionTable :=
            ⟨file.index.table.hash, rowBytes.length % 2 ^ 32⟩
          let st := st.writeAll (tableWrite table)
          some (⟨file.header, ⟨table, rows, file.index.index_uuid⟩⟩, st,
            rowBytes.length + (tableWrite table).length)

/-- `File::write` (file.rs): seek to the start, write the header, the
node chunks, then the partition. -/
def File.write (file : File) (st : Storage) (node : Node) :
    Option (File × Storage × Nat) := do
  let st := (st.seekStart 0).writeAll (Header.write file.header)
  let (index, st, n1) ← writeNode file.index st node
  let (file2, st2, n2) ← write_partition ⟨file.header, index⟩ st node
  some (file2, st2, (Header.write file.header).length + n1 + n2)

/-- `File::append` (file.rs): seek to the end, write the node chunks,
then the partition. -/
def File.append (file : File) (st : Storage) (node : Node) :
    Option (File × Storage × Nat) := do
  let st := st.seekEnd
  let (index, st, n1) ← writeNode file.index st node
  let (file2, st2, n2) ← write_partition ⟨file.header, index⟩ st node
  some (file2, st2, n1 + n2)

/-- `nom::multi::many0` over `PartitionTableRow::parse`, fuelled (each
successful row parse consumes at least one byte, so any fuel above the
input length is enough; the stop-without-consuming branch is unreachable
for this parser). -/
def many0Rows : Nat → List Nat → List PartitionTableRow × List Nat
  | 0, b => ([], b)
  | f + 1, b =>
      match rowParse b with
      | none => ([], b)
      | some (rest, row) =>
          if rest.length < b.length then
            let p := many0Rows f rest
            (row :: p.1, p.2)
          else ([], b)

/-- `File::from` (file.rs): read and parse the 5-byte header at offset 0,
seek to `End(-20)` and parse the partition table (panic — `fatal` — when
the version is unrecognized), then read `table.size` bytes ending 20
bytes before the end and parse the rows with `many0`; build the index
with `PartitionIndex::new`. -/
def File.fromStorage (st : Storage) : RResult File :=
  let p0 := (st.seekStart 0).readBuf 5
  match Header.parse p0.2 with
  | none => .err .parseError
  | some (_, header) =>
      match p0.1.seekEndNeg 20 with
      | none => .err .unknown
      | some st2 =>
          let p1 := st2.readBuf 20
          match header.version with
          | 0 =>
              match tableParse p1.2 with
              | none => .err .parseError
              | some (_, table) =>
                  if table.size = 0 then
                    .ok ⟨header, PartitionIndex.new table []⟩
                  else
                    match p1.1.seekEndNeg (20 + table.size) with
                    | none => .err .unknown
                    | some st3 =>
                        let p2 := st3.readBuf table.size
                        match header.version with
                        | 0 => .ok ⟨header, PartitionIndex.new table
                            (many0Rows (table.size + 1) p2.2).1⟩
                        | _ + 1 => .fatal .versionNotSupported
          | _ + 1 => .fatal .versionNotSupported

/-- The two `io::ErrorKind`s `File::get_node` produces. -/
inductive IoErr where
  | notFound
  | invalidData
deriving DecidableEq

/-- The byte buffer `File::get_node` hands to the node decode (file.rs
lines 182-184): the code allocates it with
`Vec::with_capacity(chunk_size)` — a vector of length zero — seeks to
`chunk_offset` and calls `read`, which fills at most the buffer's length:
zero bytes. -/
def readChunkBytes (st : Storage) (row : PartitionTableRow) : Storage × List Nat :=
  (st.seekStart row.chunk_offset).readBuf 0

/-- `PartitionTableParse::parse` for `Node` (node.rs dispatch), fuelled.
The `Note` arm is note.rs's `parse` verbatim: rebuild the note from its
row, ignoring the payload bytes.  The `Group` arm is modelled from the
spec (the concrete group codec is not under src/): per §4.5, resolve each
recorded child through the chunk table, decoding children recursively in
the recorded order; a dangling child index is a decode error, and fuel
exhaustion (`none`) models unbounded recursion on a corrupt cyclic
table. -/
def parseNode (index : PartitionIndex) :
    Nat → PartitionTableRow → List Nat → Option (List Nat × Node)
  | 0, _, _ => none
  | f + 1, row, bytes =>
      match row.chunk_type with
      | .note => some (bytes, .note row.id row.is_visible row.is_locked
          row.name row.position)
      | .group =>
          match row.children.mapM (fun i => do
              let crow ← index.rows.get? i
              let p ← parseNode index f crow []
              some p.2) with
          | some cs => some (bytes, .group row.id row.name row.position cs)
          | none => none

/-- `File::get_node` (file.rs): `NotFound` when the id is absent from
`index_uuid`; otherwise the row lookup (`unwrap`s — `none` models the
panic), the zero-length chunk read, and the node decode (`InvalidData`
when it fails). -/
def get_node (file : File) (st : Storage) (id : Nat) :
    Option (Storage × Except IoErr Node) :=
  if (lookupIdx file.index.index_uuid id).isSome = false then
    some (st, Except.error IoErr.notFound)
  else
    match lookupIdx file.index.index_uuid id with
    | none => none
    | some idx =>
        match file.index.rows.get? idx with
        | none => none
        | some row =>
            let p := readChunkBytes st row
            match parseNode file.index (file.index.rows.length + 1) row p.2 with
            | some q => some (p.1, Except.ok q.2)
            | none => some (p.1, Except.error IoErr.invalidData)

end V0

/-! ### Concrete scenario shared by several claims: write a Group with one
Note child, re-open, append a version whose root Group has no children,
re-open again. -/

/-- Root Group (id 42, name byte `[5]`) with one Note child (id 7,
text byte `[6]`). -/
def scenTree1 : V0.Node :=
  .group 42 [5] (0, 0) [.note 7 true false [6] (0, 0)]

/-- The appended version's root: the same Group, children removed. -/
def scenTree2 : V0.Node := .group 42 [5] (0, 0) []

/-- `write(empty container, scenTree1)`. -/
def scenW : Option (V0.File × V0.Storage × Nat) :=
  V0.File.write (V0.File.empty 99) ⟨[], 0⟩ scenTree1

/-- The sink after the first write. -/
def scenSt1 : V0.Storage := (scenW.map (·.2.1)).getD ⟨[], 0⟩

/-- The container re-opened from the first write. -/
def scenF2 : V0.File :=
  match V0.File.fromStorage scenSt1 with
  | .ok f => f
  | _ => V0.File.empty 0

/-- `append(scenTree2)` on the re-opened container. -/
def scenA : Option (V0.File × V0.Storage × Nat) :=
  V0.File.append scenF2 scenSt1 scenTree2

/-- The sink after the append. -/
def scenSt2 : V0.Storage := (scenA.map (·.2.1)).getD ⟨[], 0⟩

/-- The in-memory `File` value right after the append (before any
re-open). -/
def scenF3 : V0.File := (scenA.map (·.1)).getD (V0.File.empty 0)

/-- The container re-opened after the append. -/
def scenF4 : V0.File :=
  match V0.File.fromStorage scenSt2 with
  | .ok f => f
  | _ => V0.File.empty 0

/-- A chunk record declaring a one-byte payload at offset 5 (the byte 9
in `c2storage`). -/
def c2row : V0.PartitionTableRow :=
  ⟨5, .note, 5, 1, false, true, false, false, (0, 0), (0, 0), [], [], []⟩

/-- A sink whose byte at offset 5 is the payload `c2row` declares. -/
def c2storage : V0.Storage := ⟨[80, 88, 76, 82, 0, 9], 0⟩

/-- C2 (refuted — code bug in `File::get_node`, file.rs lines 182-184):
the buffer passed to the node decode is allocated with
`Vec::with_capacity(chunk_size)`, which has length zero, and `read` fills
at most the buffer's length; so for every storage and every chunk record
the decode receives an empty byte string — never the declared `size`
bytes.  In particular for the record `c2row` with `chunk_size = 1` over a
sink that does hold a payload byte at the record's offset, zero bytes are
read. -/
theorem C2_get_node_decode_receives_zero_bytes :
    (∀ (st : V0.Storage) (row : V0.PartitionTableRow),
      (V0.readChunkBytes st row).2 = []) ∧
    (V0.readChunkBytes c2storage c2row).2 = [] ∧
    c2row.chunk_size = 1 := by
  refine ⟨fun st row => ?_, by decide, by decide⟩
  simp [V0.readChunkBytes, V0.Storage.readBuf]

/-- C4 (refuted — code bug in `File::from`, file.rs line 76): on a
container whose header records the unrecognized format version 1 (with a
valid magic marker and enough trailing bytes to reach the version
check), `File::from` panics with `VersionNotSupported`
(`panic!(FileStorageError::VersionNotSupported)`) instead of returning
the typed error `Err(VersionNotSupported)` that its signature and error
enum provide. -/
theorem C4_from_panics_on_unrecognized_version :
    V0.File.fromStorage ⟨[80, 88, 76, 82, 1] ++ List.replicate 20 0, 0⟩ =
      V0.RResult.fatal V0.FileStorageError.versionNotSupported := by
  decide

set_option maxRecDepth 100000

/-- C5: `get_node` fails with `NotFound` exactly when the id is absent
from the `index_uuid` lookup of the resolved chunk table (when the id is
present the call returns a node, an `InvalidData` decode failure, or — on
a corrupted index — panics, never `NotFound`); and in the concrete
scenario, after appending a version whose root Group no longer lists the
Note (id 7) as a child, the re-opened container's lookup no longer holds
id 7, `get_node` for it returns `NotFound`, while every byte the sink
held before the append — including the Note's chunk bytes — is still
physically present. -/
theorem C5_get_node_notfound_iff_absent :
    (∀ (file : V0.File) (st : V0.Storage) (id : Nat),
      (∃ st2, V0.get_node file st id =
          some (st2, Except.error V0.IoErr.notFound)) ↔
        V0.lookupIdx file.index.index_uuid id = none) ∧
    V0.lookupIdx scenF4.index.index_uuid 7 = none ∧
    V0.get_node scenF4 scenSt2 7 = some (scenSt2, Except.error V0.IoErr.notFound) ∧
    scenSt2.data.take scenSt1.data.length = scenSt1.data := by
  refine ⟨fun file st id => ?_, by decide, rfl, by decide⟩
  constructor
  · rintro ⟨st2, h⟩
    rcases h2 : V0.lookupIdx file.index.index_uuid id with _ | idx
    · rfl
    · exfalso
      unfold V0.get_node at h
      rw [h2] at h
      simp only [Option.isSome_some, Bool.true_eq_false, if_false] at h
      split at h
      · exact Option.noConfusion h
      · split at h
        · simp at h
        · simp at h
  · intro h
    exact ⟨st, by simp [V0.get_node, h]⟩

namespace V0

theorem writeAll_at_end (st : Storage) (b : List Nat) (h : st.pos = st.data.length) :
    st.writeAll b = ⟨st.data ++ b, st.data.length + b.length⟩ := by
  unfold Storage.writeAll
  rw [h]
  have h2 : st.data.drop (st.data.length + b.length) = [] :=
    List.drop_eq_nil_of_le (by omega)
  simp [h2]

mutual

theorem writeNode_storage_eq : ∀ (index : PartitionIndex) (st : Storage)
    (node : Node) (r : PartitionIndex × Storage × Nat),
    writeNode index st node = some r → r.2.1 = st
  | index, st, .note id vis lock text pos, r, h => by
      unfold writeNode at h
      split at h
      · split at h
        · exact Option.noConfusion h
        · rw [Option.some_inj] at h
          rw [← h]
      · rw [Option.some_inj] at h
        rw [← h]
  | index, st, .group id name pos children, r, h => by
      unfold writeNode at h
      rw [Option.bind_eq_bind, Option.bind_eq_some] at h
      obtain ⟨a, ha, h⟩ := h
      obtain ⟨idxA, stA, cidx, nA⟩ := a
      have hst : stA = st :=
        writeChildren_storage_eq index st children (idxA, stA, cidx, nA) ha
      simp only at h
      split at h
      · split at h
        · exact Option.noConfusion h
        · rw [Option.some_inj] at h
          rw [← h]
          exact hst
      · rw [Option.some_inj] at h
        rw [← h]
        exact hst

theorem writeChildren_storage_eq : ∀ (index : PartitionIndex) (st : Storage)
    (cs : List Node) (r : PartitionIndex × Storage × List Nat × Nat),
    writeChildren index st cs = some r → r.2.1 = st
  | index, st, [], r, h => by
      unfold writeChildren at h
      rw [Option.some_inj] at h
      rw [← h]
  | index, st, c :: cs, r, h => by
      unfold writeChildren at h
      rw [Option.bind_eq_bind, Option.bind_eq_some] at h
      obtain ⟨a, ha, h⟩ := h
      obtain ⟨idxA, stA, nA⟩ := a
      have hstA : stA = st :=
        writeNode_storage_eq index st c (idxA, stA, nA) ha
      simp only at h
      split at h
      · exact Option.noConfusion h
      · rw [Option.bind_eq_bind, Option.bind_eq_some] at h
        obtain ⟨b, hb, h⟩ := h
        obtain ⟨idxB, stB, rest, nB⟩ := b
        have hstB : stB = stA :=
          writeChildren_storage_eq idxA stA cs (idxB, stB, rest, nB) hb
        simp only at h
        rw [Option.some_inj] at h
        rw [← h]
        exact hstB.trans hstA

end

theorem write_partition_storage (file : File) (st : Storage) (node : Node)
    (f2 : File) (st2 : Storage) (n : Nat)
    (h : write_partition file st node = some (f2, st2, n)) :
    ∃ b1 b2 : List Nat, st2 = (st.writeAll b1).writeAll b2 := by
  unfold write_partition at h
  split at h
  · exact Option.noConfusion h
  · split at h
    · exact Option.noConfusion h
    · simp only [Option.some_inj, Prod.mk.injEq] at h
      exact ⟨_, _, h.2.1.symm⟩

end V0

/-- C6: an incremental `append` only ever writes at or beyond the old end
of the sink — every byte at an offset below the sink's length before the
append is unchanged after it (`append` seeks to `End(0)`, the node
encodes write nothing, and the row/table serialization appends at the
cursor). -/
theorem C6_append_preserves_old_bytes
    (file : V0.File) (st : V0.Storage) (node : V0.Node)
    (f2 : V0.File) (st2 : V0.Storage) (n : Nat)
    (h : V0.File.append file st node = some (f2, st2, n)) :
    st.data.length ≤ st2.data.length ∧
      st2.data.take st.data.length = st.data := by
  unfold V0.File.append at h
  rw [Option.bind_eq_bind, Option.bind_eq_some] at h
  obtain ⟨a, ha, h⟩ := h
  obtain ⟨idxA, stA, nA⟩ := a
  have hstA : stA = st.seekEnd :=
    V0.writeNode_storage_eq file.index st.seekEnd node (idxA, stA, nA) ha
  simp only at h
  rw [Option.bind_eq_bind, Option.bind_eq_some] at h
  obtain ⟨b, hb, h⟩ := h
  obtain ⟨fileB, stB, nB⟩ := b
  obtain ⟨b1, b2, hsb⟩ :=
    V0.write_partition_storage ⟨file.header, idxA⟩ stA node fileB stB nB hb
  simp only [Option.some_inj, Prod.mk.injEq] at h
  have hst2 : st2 = stB := h.2.1.symm
  subst hst2 hstA hsb
  have h1 : (st.seekEnd).pos = (st.seekEnd).data.length := rfl
  rw [V0.writeAll_at_end _ _ h1]
  have h2 : ((st.seekEnd).data ++ b1 : List Nat).length =
      (st.seekEnd).data.length + b1.length := by simp
  rw [V0.writeAll_at_end ⟨(st.seekEnd).data ++ b1, _⟩ b2 (by simp)]
  constructor
  · simp [V0.Storage.seekEnd]
  · show ((st.seekEnd.data ++ b1) ++ b2).take st.data.length = st.data
    have : st.seekEnd.data = st.data := rfl
    rw [this, List.append_assoc, List.take_append_of_le_length (by simp),
      List.take_length]

/-- Witness for C6: the concrete append of `scenTree2`. -/
theorem C6_append_preserves_old_bytes_witness :
    scenSt1.data.length ≤ scenSt2.data.length ∧
      scenSt2.data.take scenSt1.data.length = scenSt1.data :=
  C6_append_preserves_old_bytes scenF2 scenSt1 scenTree2 scenF3 scenSt2 83 rfl

namespace V0

/-- Reachability over the chunk table's `children` edges (the only edge
kind a `PartitionTableRow` carries — the v0 row has no dependency field,
so child-then-dependency reachability degenerates to this). -/
inductive ReachFrom (rows : List PartitionTableRow) : Nat → Nat → Prop where
  | refl (i : Nat) : ReachFrom rows i i
  | step {i c j : Nat} (row : PartitionTableRow) (hrow : rows.get? i = some row)
      (hc : c ∈ row.children) (h : ReachFrom rows c j) : ReachFrom rows i j

theorem reachFrom_head (rows : List PartitionTableRow) (i j : Nat) :
    ReachFrom rows i j ↔
      j = i ∨ ∃ row, rows.get? i = some row ∧
        ∃ c ∈ row.children, ReachFrom rows c j := by
  constructor
  · intro h
    cases h with
    | refl => exact Or.inl rfl
    | step row hrow hc h => exact Or.inr ⟨row, hrow, _, hc, h⟩
  · intro h
    rcases h with rfl | ⟨row, hrow, c, hc, h⟩
    · exact ReachFrom.refl j
    · exact ReachFrom.step row hrow hc h

theorem getD_set_true (marks : List Bool) (i j : Nat) (hi : i < marks.length) :
    ((marks.set i true).getD j false = true ↔
      (j = i ∨ marks.getD j false = true)) := by
  by_cases hij : j = i
  · subst hij
    simp [List.getD_eq_getElem?_getD, List.getElem?_set_self hi]
  · simp [List.getD_eq_getElem?_getD,
      List.getElem?_set_ne (fun h => hij h.symm), hij]

/-- Worklist invariant of the reachability loop: on successful
termination the marked set is exactly what was already marked plus
everything reachable from the remaining stack. -/
theorem visitLoop_marks (rows : List PartitionTableRow) :
    ∀ (f : Nat) (stack : List Nat) (marks final : List Bool),
    visitLoop rows f stack marks = some final →
    ∀ j, (final.getD j false = true ↔
      (marks.getD j false = true ∨ ∃ i ∈ stack, ReachFrom rows i j)) := by
  intro f
  induction f with
  | zero =>
      intro stack marks final h
      exact Option.noConfusion h
  | succ f ih =>
      intro stack marks final h j
      match stack with
      | [] =>
          unfold visitLoop at h
          rw [Option.some_inj] at h
          subst h
          simp
      | i :: stack =>
          unfold visitLoop at h
          split at h
          · rename_i hi
            cases hrow : rows.get? i with
            | some row =>
                rw [hrow] at h
                have hIH := ih _ _ _ h j
                rw [hIH, getD_set_true marks i j hi]
                constructor
                · rintro ((hj | hm) | ⟨a, ha, hr⟩)
                  · subst hj
                    exact Or.inr ⟨_, List.mem_cons_self _ _, ReachFrom.refl _⟩
                  · exact Or.inl hm
                  · rw [List.mem_append, List.mem_reverse] at ha
                    rcases ha with ha | ha
                    · exact Or.inr ⟨i, List.mem_cons_self i stack,
                        ReachFrom.step row hrow ha hr⟩
                    · exact Or.inr ⟨a, List.mem_cons_of_mem i ha, hr⟩
                · rintro (hm | ⟨a, ha, hr⟩)
                  · exact Or.inl (Or.inr hm)
                  · rcases List.mem_cons.mp ha with rfl | ha
                    · rcases (reachFrom_head rows a j).mp hr with hj |
                        ⟨row2, hrow2, c, hc, hr2⟩
                      · exact Or.inl (Or.inl hj)
                      · rw [hrow] at hrow2
                        rw [Option.some_inj] at hrow2
                        subst hrow2
                        exact Or.inr ⟨c, by
                          rw [List.mem_append, List.mem_reverse]
                          exact Or.inl hc, hr2⟩
                    · exact Or.inr ⟨a, by
                        rw [List.mem_append]
                        exact Or.inr ha, hr⟩
            | none =>
                rw [hrow] at h
                have hIH := ih _ _ _ h j
                rw [hIH, getD_set_true marks i j hi]
                constructor
                · rintro ((hj | hm) | ⟨a, ha, hr⟩)
                  · subst hj
                    exact Or.inr ⟨_, List.mem_cons_self _ _, ReachFrom.refl _⟩
                  · exact Or.inl hm
                  · exact Or.inr ⟨a, List.mem_cons_of_mem i ha, hr⟩
                · rintro (hm | ⟨a, ha, hr⟩)
                  · exact Or.inl (Or.inr hm)
                  · rcases List.mem_cons.mp ha with rfl | ha
                    · rcases (reachFrom_head rows a j).mp hr with hj |
                        ⟨row2, hrow2, c, hc, hr2⟩
                      · exact Or.inl (Or.inl hj)
                      · rw [hrow] at hrow2
                        exact Option.noConfusion hrow2
                    · exact Or.inr ⟨a, ha, hr⟩
          · exact Option.noConfusion h

/-- Writing at a cursor inside the sink leaves the bytes below the
cursor unchanged. -/
theorem writeAll_take (st : Storage) (b : List Nat) (h : st.pos ≤ st.data.length) :
    (st.writeAll b).data.take st.pos = st.data.take st.pos ∧
      st.pos + b.length ≤ (st.writeAll b).data.length ∧
      (st.writeAll b).pos = st.pos + b.length := by
  unfold Storage.writeAll
  refine ⟨?_, ?_, rfl⟩
  · rw [List.take_append_of_le_length (by simp [List.length_take]; omega),
      List.take_append_of_le_length (by simp [List.length_take]; omega),
      List.take_append_of_le_length (by simp [List.length_take]; omega),
      List.take_take]
    simp [Nat.min_self]
  · simp [List.length_take]
    omega

end V0

theorem getD_replicate_false (n j : Nat) :
    (List.replicate n false).getD j false = false := by
  simp only [List.getD_eq_getElem?_getD, List.getElem?_replicate]
  split <;> rfl

/-- C3: on every successful `write_partition` (the table-writing tail of
both `write` and `append`), the chunk table written out consists of
exactly the rows whose index is reachable from the root's row over
`children` edges, kept in their original order (a `PartitionTableRow`
carries no dependency edges, so the spec's child-then-dependency
traversal degenerates to child reachability); every unreachable row is
dropped from the table, while all sink bytes below the write cursor —
the previously written payload — are untouched. -/
theorem C3_write_partition_drops_exactly_unreachable
    (file : V0.File) (st : V0.Storage) (node : V0.Node)
    (f2 : V0.File) (st2 : V0.Storage) (n : Nat)
    (hpos : st.pos ≤ st.data.length)
    (h : V0.write_partition file st node = some (f2, st2, n)) :
    ∃ (rootIdx : Nat) (marks : List Bool),
      V0.lookupIdx file.index.index_uuid node.nid = some rootIdx ∧
      (∀ j, marks.getD j false = true ↔
        V0.ReachFrom file.index.rows rootIdx j) ∧
      f2.index.rows = (file.index.rows.enum.filter
        (fun p => marks.getD p.1 false)).map Prod.snd ∧
      st2.data.take st.pos = st.data.take st.pos := by
  unfold V0.write_partition at h
  cases hroot : V0.lookupIdx file.index.index_uuid node.nid with
  | none =>
      rw [hroot] at h
      exact Option.noConfusion h
  | some rootIdx =>
      simp only [hroot] at h
      cases hloop : V0.visitLoop file.index.rows (V0.partFuel file.index.rows)
          [rootIdx] (List.replicate file.index.rows.length false) with
      | none =>
          rw [hloop] at h
          exact Option.noConfusion h
      | some marks =>
          simp only [hloop] at h
          simp only [Option.some_inj, Prod.mk.injEq] at h
          obtain ⟨hf, hst, hn⟩ := h
          refine ⟨rootIdx, marks, rfl, ?_, ?_, ?_⟩
          · intro j
            rw [V0.visitLoop_marks file.index.rows _ _ _ _ hloop j]
            simp [getD_replicate_false]
          · rw [← hf]
          · rw [← hst]
            obtain ⟨h1, h2, h3⟩ := V0.writeAll_take st
              ((List.map V0.rowWrite ((file.index.rows.enum.filter
                (fun p => marks.getD p.1 false)).map Prod.snd)).flatten) hpos
            obtain ⟨h4, h5, h6⟩ := V0.writeAll_take (st.writeAll
              ((List.map V0.rowWrite ((file.index.rows.enum.filter
                (fun p => marks.getD p.1 false)).map Prod.snd)).flatten))
              (V0.tableWrite ⟨file.index.table.hash,
                ((List.map V0.rowWrite ((file.index.rows.enum.filter
                  (fun p => marks.getD p.1 false)).map Prod.snd)).flatten).length % 2 ^ 32⟩)
              (by rw [h3]; omega)
            calc ((st.writeAll _).writeAll _).data.take st.pos
                = (((st.writeAll _).writeAll _).data.take ((st.writeAll _).pos)).take st.pos := by
                  rw [List.take_take, Nat.min_eq_left (by rw [h3]; omega)]
              _ = ((st.writeAll _).data.take ((st.writeAll _).pos)).take st.pos := by rw [h4]
              _ = (st.writeAll _).data.take st.pos := by
                  rw [List.take_take, Nat.min_eq_left (by rw [h3]; omega)]
              _ = st.data.take st.pos := h1

/-- A concrete `write_partition` call: the re-opened container, cursor at
the end of the sink, root `scenTree2`. -/
def scenWp : Option (V0.File × V0.Storage × Nat) :=
  V0.write_partition scenF2 scenSt1.seekEnd scenTree2

/-- The file produced by `scenWp`. -/
def scenWpF : V0.File := (scenWp.map (·.1)).getD (V0.File.empty 0)

/-- The sink produced by `scenWp`. -/
def scenWpS : V0.Storage := (scenWp.map (·.2.1)).getD ⟨[], 0⟩

/-- The byte count returned by `scenWp`. -/
def scenWpN : Nat := (scenWp.map (·.2.2)).getD 0

/-- Witness for C3: the concrete `write_partition` call `scenWp`. -/
theorem C3_write_partition_drops_exactly_unreachable_witness :
    ∃ (rootIdx : Nat) (marks : List Bool),
      V0.lookupIdx scenF2.index.index_uuid scenTree2.nid = some rootIdx ∧
      (∀ j, marks.getD j false = true ↔
        V0.ReachFrom scenF2.index.rows rootIdx j) ∧
      scenWpF.index.rows = (scenF2.index.rows.enum.filter
        (fun p => marks.getD p.1 false)).map Prod.snd ∧
      scenWpS.data.take scenSt1.seekEnd.pos =
        scenSt1.seekEnd.data.take scenSt1.seekEnd.pos :=
  C3_write_partition_drops_exactly_unreachable scenF2 scenSt1.seekEnd scenTree2
    scenWpF scenWpS scenWpN (by decide) rfl

namespace V0

theorem lookupIdx_mapInsert_self (m : List (Nat × Nat)) (id v : Nat) :
    lookupIdx (mapInsert m id v) id = some v := by
  simp [lookupIdx, mapInsert, List.find?_cons]

theorem find?_filter_ne (m : List (Nat × Nat)) (id id2 : Nat) (h : id2 ≠ id) :
    (m.filter (fun p => p.1 != id)).find? (fun p => p.1 == id2) =
      m.find? (fun p => p.1 == id2) := by
  induction m with
  | nil => rfl
  | cons q m ih =>
      have h3 : (id == id2) = false := by
        simp only [beq_eq_false_iff_ne, ne_eq]
        exact fun he => h he.symm
      have h4 : ¬ (id2 = id) := h
      by_cases hq1 : q.1 = id
      · have h2 : ¬ q.1 = id2 := by
          rw [hq1]
          exact fun he => h he.symm
        simp [List.filter_cons, List.find?_cons, hq1, h2, h3, h4, ih]
      · by_cases hq2 : q.1 = id2
        · simp [List.filter_cons, List.find?_cons, hq1, hq2, h3, h4]
        · simp [List.filter_cons, List.find?_cons, hq1, hq2, h3, h4, ih]

theorem lookupIdx_mapInsert_ne (m : List (Nat × Nat)) (id v id2 : Nat)
    (h : id2 ≠ id) : lookupIdx (mapInsert m id v) id2 = lookupIdx m id2 := by
  unfold lookupIdx mapInsert
  have h2 : ¬ (id = id2) := fun he => h he.symm
  rw [List.find?_cons_of_neg _ (by simpa using h2), find?_filter_ne m id id2 h]

/-- The step function of `PartitionIndex.new`'s fold. -/
def buildStep (m : List (Nat × Nat)) (p : Nat × PartitionTableRow) :
    List (Nat × Nat) :=
  mapInsert m p.2.id p.1

theorem lookup_fold_not_mem (rows : List PartitionTableRow) :
    ∀ (n : Nat) (m : List (Nat × Nat)) (id : Nat),
    (∀ row ∈ rows, row.id ≠ id) →
    lookupIdx ((List.enumFrom n rows).foldl buildStep m) id = lookupIdx m id := by
  induction rows with
  | nil => intro n m id _; rfl
  | cons r rs ih =>
      intro n m id hnot
      simp only [List.enumFrom, List.foldl_cons]
      rw [ih (n + 1) _ id (fun row hr => hnot row (List.mem_cons_of_mem r hr))]
      exact lookupIdx_mapInsert_ne m r.id n id
        (fun he => hnot r (List.mem_cons_self r rs) he.symm)

theorem lookup_fold_mem (rows : List PartitionTableRow) :
    ∀ (n : Nat) (m : List (Nat × Nat)) (i : Nat) (row : PartitionTableRow),
    rows.get? i = some row →
    (∀ j rj, rows.get? j = some rj → rj.id = row.id → j ≤ i) →
    lookupIdx ((List.enumFrom n rows).foldl buildStep m) row.id = some (n + i) := by
  induction rows with
  | nil => intro n m i row h; exact Option.noConfusion h
  | cons r rs ih =>
      intro n m i row hget hlast
      simp only [List.enumFrom, List.foldl_cons]
      match i, hget with
      | 0, hget =>
          rw [List.get?_cons_zero, Option.some_inj] at hget
          subst hget
          rw [lookup_fold_not_mem rs (n + 1) _ r.id ?hnm]
          · rw [Nat.add_zero]
            exact lookupIdx_mapInsert_self m r.id n
          case hnm =>
            intro rj hmem he
            obtain ⟨j, hj⟩ := List.get?_of_mem hmem
            have := hlast (j + 1) rj (by simpa using hj) he
            omega
      | i + 1, hget =>
          rw [List.get?_cons_succ] at hget
          have hres := ih (n + 1) (buildStep m (n, r)) i row hget ?hl
          · rw [hres]
            congr 1
            omega
          case hl =>
            intro j rj hj he
            have := hlast (j + 1) rj (by simpa using hj) he
            omega

end V0

namespace V0

theorem lookup_fold_sound (rows : List PartitionTableRow) :
    ∀ (n : Nat) (m : List (Nat × Nat)) (id v : Nat),
    lookupIdx ((List.enumFrom n rows).foldl buildStep m) id = some v →
    (∃ i row, rows.get? i = some row ∧ row.id = id ∧ v = n + i) ∨
      lookupIdx m id = some v := by
  induction rows with
  | nil => intro n m id v h; exact Or.inr h
  | cons r rs ih =>
      intro n m id v h
      simp only [List.enumFrom, List.foldl_cons] at h
      rcases ih (n + 1) _ id v h with ⟨i, row, hget, hid, hv⟩ | hacc
      · exact Or.inl ⟨i + 1, row, by simpa using hget, hid, by omega⟩
      · by_cases hid : id = r.id
        · subst hid
          rw [show buildStep m (n, r) = mapInsert m r.id n from rfl,
            lookupIdx_mapInsert_self] at hacc
          rw [Option.some_inj] at hacc
          exact Or.inl ⟨0, r, rfl, rfl, by omega⟩
        · rw [show buildStep m (n, r) = mapInsert m r.id n from rfl,
            lookupIdx_mapInsert_ne m r.id n id hid] at hacc
          exact Or.inr hacc

theorem distinct_ids_of_nodup (rows : List PartitionTableRow)
    (h : (rows.map (fun r => r.id)).Nodup) :
    ∀ i j ri rj, rows.get? i = some ri → rows.get? j = some rj →
      ri.id = rj.id → i = j := by
  intro i j ri rj hi hj hid
  rw [List.get?_eq_some] at hi hj
  obtain ⟨hi1, hi2⟩ := hi
  obtain ⟨hj1, hj2⟩ := hj
  have hlen : ∀ k, k < rows.length → k < (rows.map (fun r => r.id)).length := by
    simp
  have heq : (rows.map (fun r => r.id)).get ⟨i, hlen i hi1⟩ =
      (rows.map (fun r => r.id)).get ⟨j, hlen j hj1⟩ := by
    simp only [List.get_eq_getElem, List.getElem_map]
    simp only [List.get_eq_getElem] at hi2 hj2
    rw [hi2, hj2, hid]
  have h2 : (⟨i, hlen i hi1⟩ : Fin (rows.map (fun r => r.id)).length) =
      ⟨j, hlen j hj1⟩ := h.get_inj_iff.mp heq
  exact congrArg Fin.val h2

/-- The invariant of C9: `index_uuid` maps each row's id to that row's
position, and every binding in it points back at a row with that id. -/
def IndexWF (idx : PartitionIndex) : Prop :=
  (∀ i row, idx.rows.get? i = some row →
    lookupIdx idx.index_uuid row.id = some i) ∧
  (∀ id v, lookupIdx idx.index_uuid id = some v →
    ∃ row, idx.rows.get? v = some row ∧ row.id = id)

theorem IndexWF_new (table : PartitionTable) (rows : List PartitionTableRow)
    (h : (rows.map (fun r => r.id)).Nodup) :
    IndexWF (PartitionIndex.new table rows) := by
  have hdist := distinct_ids_of_nodup rows h
  constructor
  · intro i row hget
    have := lookup_fold_mem rows 0 [] i row hget
      (fun j rj hj he => Nat.le_of_eq (hdist j i rj row hj hget he))
    simpa using this
  · intro id v hl
    have hs := lookup_fold_sound rows 0 [] id v (by simpa using hl)
    rcases hs with ⟨i, row, hget, hid, hv⟩ | hacc
    · exact ⟨row, by rw [show v = i by omega]; exact hget, hid⟩
    · exact Option.noConfusion hacc

end V0

/-- C9 counterexample: `append` (via `write_partition`'s compaction) drops
the Note row but leaves `index_uuid` untouched, so right after the
concrete append the in-memory `File` has one row yet two `index_uuid`
entries, the root Group's entry points at position 1 of a one-row vector
— the invariant is broken — and `get_node` for the root id panics on its
`rows.get(idx).unwrap()` (modelled as `none`). -/
theorem C9_counterexample :
    V0.File.append scenF2 scenSt1 scenTree2 = some (scenF3, scenSt2, 83) ∧
    scenF3.index.rows.length = 1 ∧
    V0.lookupIdx scenF3.index.index_uuid 42 = some 1 ∧
    V0.lookupIdx scenF3.index.index_uuid 7 = some 0 ∧
    ¬ V0.IndexWF scenF3.index ∧
    V0.get_node scenF3 scenSt2 42 = none := by
  refine ⟨rfl, by decide, by decide, by decide, ?_, rfl⟩
  rintro ⟨_, h2⟩
  obtain ⟨row, hrow, _⟩ := h2 42 1 (by decide)
  have hlen : scenF3.index.rows.length = 1 := by decide
  rw [List.get?_eq_some] at hrow
  obtain ⟨hlt, _⟩ := hrow
  omega

/-- C9 (amended): `File::empty` establishes the `index_uuid` invariant,
`File::from` establishes it whenever the parsed rows carry pairwise
distinct ids, and under the invariant `get_node`'s internal unwraps are
unreachable as panics; but `write`/`append` do *not* preserve it — the
compaction in `write_partition` drops rows without rebuilding
`index_uuid` (see the counterexample). -/
theorem C9_empty_and_from_establish_invariant :
    (∀ hash : Nat, V0.IndexWF (V0.File.empty hash).index) ∧
    (∀ (st : V0.Storage) (f : V0.File), V0.File.fromStorage st = .ok f →
      (f.index.rows.map (fun r => r.id)).Nodup → V0.IndexWF f.index) ∧
    (∀ (file : V0.File) (st : V0.Storage) (id : Nat),
      V0.IndexWF file.index → V0.get_node file st id ≠ none) := by
  refine ⟨?_, ?_, ?_⟩
  · intro hash
    constructor
    · intro i row hget
      rw [show (V0.File.empty hash).index.rows = [] from rfl,
        List.get?_nil] at hget
      exact Option.noConfusion hget
    · intro id v hl
      exact Option.noConfusion hl
  · intro st f hok hnodup
    simp only [V0.File.fromStorage] at hok
    split at hok
    · exact V0.RResult.noConfusion hok
    · split at hok
      · exact V0.RResult.noConfusion hok
      · split at hok
        · split at hok
          · exact V0.RResult.noConfusion hok
          · split at hok
            · rw [V0.RResult.ok.injEq] at hok
              subst hok
              exact V0.IndexWF_new _ _ hnodup
            · split at hok
              · exact V0.RResult.noConfusion hok
              · split at hok
                · rw [V0.RResult.ok.injEq] at hok
                  subst hok
                  exact V0.IndexWF_new _ _ hnodup
                · exact V0.RResult.noConfusion hok
        · exact V0.RResult.noConfusion hok
  · intro file st id hwf hnone
    unfold V0.get_node at hnone
    by_cases hc : (V0.lookupIdx file.index.index_uuid id).isSome = false
    · rw [if_pos hc] at hnone
      exact Option.noConfusion hnone
    · rw [if_neg hc] at hnone
      cases hl : V0.lookupIdx file.index.index_uuid id with
      | none => rw [hl] at hc; exact hc rfl
      | some idx =>
          simp only [hl] at hnone
          obtain ⟨row, hrow, _⟩ := hwf.2 id idx hl
          simp only [hrow] at hnone
          cases hp : V0.parseNode file.index (file.index.rows.length + 1) row
              (V0.readChunkBytes st row).2 with
          | none => simp only [hp] at hnone; exact Option.noConfusion hnone
          | some q => simp only [hp] at hnone; exact Option.noConfusion hnone

/-- Witness for the amended C9 at concrete inputs. -/
theorem C9_empty_and_from_establish_invariant_witness :
    V0.IndexWF (V0.File.empty 99).index ∧
    V0.IndexWF scenF2.index ∧
    V0.get_node scenF2 scenSt1 42 ≠ none :=
  ⟨C9_empty_and_from_establish_invariant.1 99,
    C9_empty_and_from_establish_invariant.2.1 scenSt1 scenF2 rfl (by decide),
    C9_empty_and_from_establish_invariant.2.2 scenF2 scenSt1 42
      (C9_empty_and_from_establish_invariant.2.1 scenSt1 scenF2 rfl (by decide))⟩

/-! ### C1 — full write / re-open / get_node roundtrip -/

namespace V0

mutual

/-- Number of nodes in a tree. -/
def nodeCount : Node → Nat
  | .note _ _ _ _ _ => 1
  | .group _ _ _ children => nodeCountL children + 1

/-- Number of nodes in a forest. -/
def nodeCountL : List Node → Nat
  | [] => 0
  | c :: cs => nodeCount c + nodeCountL cs

end

mutual

/-- All ids of a tree in postorder (children first, then the node) —
the order in which `writeNode` appends rows. -/
def treeIds : Node → List Nat
  | .note id _ _ _ _ => [id]
  | .group id _ _ children => treeIdsL children ++ [id]

/-- All ids of a forest in postorder. -/
def treeIdsL : List Node → List Nat
  | [] => []
  | c :: cs => treeIds c ++ treeIdsL cs

end

mutual

/-- Field bounds of a tree matching the Rust integer widths: ids are
UUIDs (16 bytes), names are u32-length-prefixed, positions are pairs of
32-bit patterns. -/
def nodeOkB : Node → Bool
  | .note id _ _ text pos =>
      decide (id < 256 ^ 16) && decide (text.length < 256 ^ 4) &&
        decide (pos.1 < 256 ^ 4) && decide (pos.2 < 256 ^ 4)
  | .group id name pos children =>
      decide (id < 256 ^ 16) && decide (name.length < 256 ^ 4) &&
        decide (pos.1 < 256 ^ 4) && decide (pos.2 < 256 ^ 4) &&
        nodeOkBL children

/-- Field bounds of a forest. -/
def nodeOkBL : List Node → Bool
  | [] => true
  | c :: cs => nodeOkB c && nodeOkBL cs

end

/-- The root row index of each child of a group written with the forest
starting at row index `base`: child `j`'s subtree occupies the next
`nodeCount` positions and its root row comes last. -/
def childIdxs : List Node → Nat → List Nat
  | [], _ => []
  | c :: cs, base => (base + nodeCount c - 1) :: childIdxs cs (base + nodeCount c)

/-- The row `writeNode` creates for the root of `T` when the forest
before it ends at row index `base` and the cursor sits at `off`. -/
def rootRowOf (off base : Nat) : Node → PartitionTableRow
  | .note id vis lock text pos =>
      ⟨id, .note, off, 0, false, vis, lock, false, pos, (0, 0), text, [], []⟩
  | .group id name pos children =>
      ⟨id, .group, off, 0, false, true, false, false, pos, (0, 0), name,
        childIdxs children base, []⟩

mutual

/-- The rows `writeNode` appends for a fresh tree `T`, in postorder,
when the table already holds `base` rows and the cursor sits at `off`. -/
def rowsOf (off : Nat) : Node → Nat → List PartitionTableRow
  | .note id vis lock text pos, _ =>
      [⟨id, .note, off, 0, false, vis, lock, false, pos, (0, 0), text, [], []⟩]
  | .group id name pos children, base =>
      rowsOfL off children base ++
        [⟨id, .group, off, 0, false, true, false, false, pos, (0, 0), name,
          childIdxs children base, []⟩]

/-- The rows `writeChildren` appends for a fresh forest. -/
def rowsOfL (off : Nat) : List Node → Nat → List PartitionTableRow
  | [], _ => []
  | c :: cs, base => rowsOf off c base ++ rowsOfL off cs (base + nodeCount c)

end

/-- Width bounds on a row making its codec a bijection. -/
def RowWF (r : PartitionTableRow) : Prop :=
  r.id < 256 ^ 16 ∧ r.chunk_offset < 256 ^ 8 ∧ r.chunk_size < 256 ^ 4 ∧
    r.position.1 < 256 ^ 4 ∧ r.position.2 < 256 ^ 4 ∧
    r.extent.1 < 256 ^ 4 ∧ r.extent.2 < 256 ^ 4 ∧
    r.name.length < 256 ^ 4 ∧ r.children.length < 256 ^ 4 ∧
    (∀ c ∈ r.children, c < 256 ^ 4) ∧ r.preview.length < 256 ^ 4

mutual

theorem rowsOf_length (off : Nat) : ∀ (T : Node) (base : Nat),
    (rowsOf off T base).length = nodeCount T
  | .note _ _ _ _ _, _ => rfl
  | .group id name pos children, base => by
      simp only [rowsOf, nodeCount, List.length_append, List.length_cons,
        List.length_nil]
      rw [rowsOfL_length off children base]

theorem rowsOfL_length (off : Nat) : ∀ (cs : List Node) (base : Nat),
    (rowsOfL off cs base).length = nodeCountL cs
  | [], _ => rfl
  | c :: cs, base => by
      simp only [rowsOfL, nodeCountL, List.length_append]
      rw [rowsOf_length off c base, rowsOfL_length off cs (base + nodeCount c)]

end

mutual

theorem rowsOf_ids (off : Nat) : ∀ (T : Node) (base : Nat),
    (rowsOf off T base).map (fun r => r.id) = treeIds T
  | .note _ _ _ _ _, _ => rfl
  | .group id name pos children, base => by
      simp only [rowsOf, treeIds, List.map_append, List.map_cons, List.map_nil]
      rw [rowsOfL_ids off children base]

theorem rowsOfL_ids (off : Nat) : ∀ (cs : List Node) (base : Nat),
    (rowsOfL off cs base).map (fun r => r.id) = treeIdsL cs
  | [], _ => rfl
  | c :: cs, base => by
      simp only [rowsOfL, treeIdsL, List.map_append]
      rw [rowsOf_ids off c base, rowsOfL_ids off cs (base + nodeCount c)]

end

mutual

theorem nodeCount_pos : ∀ T : Node, 1 ≤ nodeCount T
  | .note _ _ _ _ _ => Nat.le_refl 1
  | .group _ _ _ children => by
      simp only [nodeCount]
      omega

end

end V0

namespace V0

theorem rowsOf_get_last (off : Nat) (T : Node) (base : Nat) :
    (rowsOf off T base).get? (nodeCount T - 1) = some (rootRowOf off base T) := by
  cases T with
  | note id vis lock text pos => rfl
  | group id name pos children =>
      show ((rowsOfL off children base) ++ [_]).get? (nodeCountL children + 1 - 1)
        = _
      rw [List.get?_append_right (by rw [rowsOfL_length]; omega)]
      rw [rowsOfL_length]
      have hz : nodeCountL children + 1 - 1 - nodeCountL children = 0 := by omega
      rw [hz]
      rfl

theorem childIdxs_bound : ∀ (cs : List Node) (base : Nat),
    ∀ c ∈ childIdxs cs base, base ≤ c ∧ c < base + nodeCountL cs := by
  intro cs
  induction cs with
  | nil => intro base c hc; exact absurd hc (List.not_mem_nil c)
  | cons c0 cs ih =>
      intro base c hc
      rcases List.mem_cons.mp hc with rfl | hc
      · have := nodeCount_pos c0
        simp only [nodeCountL]
        omega
      · have := ih (base + nodeCount c0) c hc
        simp only [nodeCountL]
        omega

theorem childIdxs_length : ∀ (cs : List Node) (base : Nat),
    (childIdxs cs base).length = cs.length := by
  intro cs
  induction cs with
  | nil => intro base; rfl
  | cons c0 cs ih => intro base; simp [childIdxs, ih]

theorem length_le_nodeCountL : ∀ cs : List Node, cs.length ≤ nodeCountL cs := by
  intro cs
  induction cs with
  | nil => exact Nat.le_refl 0
  | cons c cs ih =>
      have := nodeCount_pos c
      simp only [nodeCountL, List.length_cons]
      omega

mutual

theorem rowsOf_children_bound (off : Nat) : ∀ (T : Node) (base k : Nat)
    (row : PartitionTableRow), (rowsOf off T base).get? k = some row →
    ∀ c ∈ row.children, base ≤ c ∧ c < base + k
  | .note id vis lock text pos, base, k, row, h => by
      cases k with
      | zero =>
          rw [show (rowsOf off (.note id vis lock text pos) base) =
            [⟨id, .note, off, 0, false, vis, lock, false, pos, (0, 0), text,
              [], []⟩] from rfl, List.get?_cons_zero, Option.some_inj] at h
          subst h
          intro c hc
          exact absurd hc (List.not_mem_nil c)
      | succ k =>
          rw [show (rowsOf off (.note id vis lock text pos) base) =
            [⟨id, .note, off, 0, false, vis, lock, false, pos, (0, 0), text,
              [], []⟩] from rfl] at h
          simp at h
  | .group id name pos children, base, k, row, h => by
      rw [show rowsOf off (.group id name pos children) base =
        rowsOfL off children base ++ [rootRowOf off base
          (.group id name pos children)] from rfl] at h
      by_cases hk : k < (rowsOfL off children base).length
      · rw [List.get?_append hk] at h
        intro c hc
        exact rowsOfL_children_bound off children base k row h c hc
      · rw [List.get?_append_right (by omega)] at h
        rw [rowsOfL_length] at h
        match hd : k - nodeCountL children, h with
        | 0, h =>
            rw [List.get?_cons_zero, Option.some_inj] at h
            subst h
            intro c hc
            have hb := childIdxs_bound children base c hc
            rw [rowsOfL_length] at hk
            omega
        | d + 1, h => exact absurd h (by simp)

theorem rowsOfL_children_bound (off : Nat) : ∀ (cs : List Node) (base k : Nat)
    (row : PartitionTableRow), (rowsOfL off cs base).get? k = some row →
    ∀ c ∈ row.children, base ≤ c ∧ c < base + k
  | [], base, k, row, h => by
      rw [show rowsOfL off [] base = [] from rfl, List.get?_nil] at h
      exact Option.noConfusion h
  | c0 :: cs, base, k, row, h => by
      rw [show rowsOfL off (c0 :: cs) base =
        rowsOf off c0 base ++ rowsOfL off cs (base + nodeCount c0) from rfl] at h
      by_cases hk : k < (rowsOf off c0 base).length
      · rw [List.get?_append hk] at h
        intro c hc
        exact rowsOf_children_bound off c0 base k row h c hc
      · rw [List.get?_append_right (by omega)] at h
        intro c hc
        have := rowsOfL_children_bound off cs (base + nodeCount c0)
          (k - (rowsOf off c0 base).length) row h c hc
        rw [rowsOf_length] at this hk
        omega

end

end V0

namespace V0

mutual

theorem rowsOf_RowWF (off : Nat) (hoff : off < 256 ^ 8) :
    ∀ (T : Node) (base : Nat), nodeOkB T = true →
    base + nodeCount T ≤ 256 ^ 4 →
    ∀ row ∈ rowsOf off T base, RowWF row
  | .note id vis lock text pos, base, hok, hb, row, hmem => by
      simp only [nodeOkB, Bool.and_eq_true, decide_eq_true_eq] at hok
      obtain ⟨⟨⟨h1, h2⟩, h3⟩, h4⟩ := hok
      rw [show rowsOf off (.note id vis lock text pos) base =
        [⟨id, .note, off, 0, false, vis, lock, false, pos, (0, 0), text,
          [], []⟩] from rfl, List.mem_singleton] at hmem
      subst hmem
      have hz : (0 : Nat) < 256 ^ 4 := by decide
      exact ⟨h1, hoff, hz, h3, h4, hz, hz, h2,
        hz, fun c hc => absurd hc (List.not_mem_nil c), hz⟩
  | .group id name pos children, base, hok, hb, row, hmem => by
      simp only [nodeOkB, Bool.and_eq_true, decide_eq_true_eq] at hok
      obtain ⟨⟨⟨⟨h1, h2⟩, h3⟩, h4⟩, h5⟩ := hok
      rw [show rowsOf off (.group id name pos children) base =
        rowsOfL off children base ++ [rootRowOf off base
          (.group id name pos children)] from rfl, List.mem_append] at hmem
      rcases hmem with hmem | hmem
      · have hb2 : base + nodeCountL children ≤ 256 ^ 4 := by
          rw [show nodeCount (.group id name pos children) =
            nodeCountL children + 1 from rfl] at hb
          omega
        exact rowsOfL_RowWF off hoff children base h5 hb2 row hmem
      · rw [List.mem_singleton] at hmem
        subst hmem
        have hz : (0 : Nat) < 256 ^ 4 := by decide
        refine ⟨h1, hoff, hz, h3, h4, hz, hz, h2, ?_, ?_, hz⟩
        · show (childIdxs children base).length < 256 ^ 4
          rw [childIdxs_length]
          have := length_le_nodeCountL children
          rw [show nodeCount (.group id name pos children) =
            nodeCountL children + 1 from rfl] at hb
          omega
        · intro c hc
          have := childIdxs_bound children base c hc
          rw [show nodeCount (.group id name pos children) =
            nodeCountL children + 1 from rfl] at hb
          omega

theorem rowsOfL_RowWF (off : Nat) (hoff : off < 256 ^ 8) :
    ∀ (cs : List Node) (base : Nat), nodeOkBL cs = true →
    base + nodeCountL cs ≤ 256 ^ 4 →
    ∀ row ∈ rowsOfL off cs base, RowWF row
  | [], base, hok, hb, row, hmem => absurd hmem (List.not_mem_nil row)
  | c0 :: cs, base, hok, hb, row, hmem => by
      simp only [nodeOkBL, Bool.and_eq_true] at hok
      rw [show rowsOfL off (c0 :: cs) base =
        rowsOf off c0 base ++ rowsOfL off cs (base + nodeCount c0) from rfl,
        List.mem_append] at hmem
      rw [show nodeCountL (c0 :: cs) = nodeCount c0 + nodeCountL cs from rfl] at hb
      rcases hmem with hmem | hmem
      · exact rowsOf_RowWF off hoff c0 base hok.1 (by omega) row hmem
      · exact rowsOfL_RowWF off hoff cs (base + nodeCount c0) hok.2
          (by omega) row hmem

end

end V0

namespace V0

/-- The `index_uuid` map after registering the rows `R` at positions
`base, base+1, …` (the order `writeNode` inserts them). -/
def mapAfter (m : List (Nat × Nat)) (base : Nat)
    (R : List PartitionTableRow) : List (Nat × Nat) :=
  (List.enumFrom base R).foldl buildStep m

theorem mapAfter_nil (m : List (Nat × Nat)) (base : Nat) :
    mapAfter m base [] = m := rfl

theorem mapAfter_append (m : List (Nat × Nat)) :
    ∀ (R1 R2 : List PartitionTableRow) (base : Nat),
    mapAfter m base (R1 ++ R2) =
      mapAfter (mapAfter m base R1) (base + R1.length) R2 := by
  intro R1
  induction R1 generalizing m with
  | nil => intro R2 base; simp [mapAfter]
  | cons r R1 ih =>
      intro R2 base
      simp only [mapAfter, List.cons_append, List.enumFrom_cons,
        List.foldl_cons, List.length_cons]
      have := ih (buildStep m (base, r)) R2 (base + 1)
      simp only [mapAfter] at this
      rw [this]
      congr 2
      omega

theorem rootRowOf_id (off base : Nat) (T : Node) :
    (rootRowOf off base T).id = T.nid := by
  cases T <;> rfl

theorem mem_rowsOf_id (off : Nat) (T : Node) (base : Nat)
    (row : PartitionTableRow) (h : row ∈ rowsOf off T base) :
    row.id ∈ treeIds T := by
  have := List.mem_map_of_mem (fun r => r.id) h
  rw [rowsOf_ids] at this
  exact this

theorem mem_rowsOfL_id (off : Nat) (cs : List Node) (base : Nat)
    (row : PartitionTableRow) (h : row ∈ rowsOfL off cs base) :
    row.id ∈ treeIdsL cs := by
  have := List.mem_map_of_mem (fun r => r.id) h
  rw [rowsOfL_ids] at this
  exact this

/-- Lookup of the root id of a freshly written subtree: the root's row is
the last of `rowsOf`, so the lookup returns its absolute position. -/
theorem lookup_mapAfter_root (m : List (Nat × Nat)) (off : Nat) (T : Node)
    (base : Nat) :
    lookupIdx (mapAfter m base (rowsOf off T base)) T.nid =
      some (base + (nodeCount T - 1)) := by
  have hlast := rowsOf_get_last off T base
  have hid := rootRowOf_id off base T
  have := lookup_fold_mem (rowsOf off T base) base m (nodeCount T - 1)
    (rootRowOf off base T) hlast ?_
  · rw [hid] at this
    exact this
  · intro j rj hj _
    have hlen : j < (rowsOf off T base).length := by
      rw [List.get?_eq_some] at hj
      exact hj.1
    rw [rowsOf_length] at hlen
    omega

/-- Lookup of an id none of the fresh rows carry falls through. -/
theorem lookup_mapAfter_not_mem (m : List (Nat × Nat)) (base : Nat)
    (R : List PartitionTableRow) (id : Nat)
    (h : ∀ row ∈ R, row.id ≠ id) :
    lookupIdx (mapAfter m base R) id = lookupIdx m id :=
  lookup_fold_not_mem R base m id h

end V0


namespace V0

mutual

/-- Characterization of `writeNode` on a fresh tree (no id of the tree
already registered in `index_uuid`): the storage is untouched, zero
payload bytes are reported, the tree's rows are appended in postorder,
and `index_uuid` gains one binding per new row. -/
theorem writeNode_fresh (st : Storage) : ∀ (T : Node) (index : PartitionIndex),
    (treeIds T).Nodup →
    (∀ id ∈ treeIds T, lookupIdx index.index_uuid id = none) →
    writeNode index st T = some
      (⟨index.table, index.rows ++ rowsOf st.pos T index.rows.length,
        mapAfter index.index_uuid index.rows.length
          (rowsOf st.pos T index.rows.length)⟩, st, 0)
  | .note id vis lock text pos, index, hnodup, hfresh => by
      have hl : lookupIdx index.index_uuid id = none :=
        hfresh id (by simp [treeIds])
      unfold writeNode
      rw [hl]
      rfl
  | .group id name pos children, index, hnodup, hfresh => by
      have hsplit : treeIds (.group id name pos children) =
          treeIdsL children ++ [id] := rfl
      have hnodupL : (treeIdsL children).Nodup := by
        rw [hsplit] at hnodup
        exact hnodup.of_append_left
      have hfreshL : ∀ i ∈ treeIdsL children,
          lookupIdx index.index_uuid i = none := fun i hi =>
        hfresh i (by rw [hsplit]; exact List.mem_append_left _ hi)
      have hdisj : id ∉ treeIdsL children := by
        rw [hsplit, List.nodup_append] at hnodup
        intro hmem
        exact hnodup.2.2 hmem (List.mem_singleton_self id)
      have hwc := writeChildren_fresh st children index hnodupL hfreshL
      have hl1 : lookupIdx (mapAfter index.index_uuid index.rows.length
          (rowsOfL st.pos children index.rows.length)) id = none := by
        rw [lookup_mapAfter_not_mem]
        · exact hfresh id (by
            rw [hsplit]
            exact List.mem_append_right _ (List.mem_singleton_self id))
        · intro row hrow he
          exact hdisj (he ▸ mem_rowsOfL_id st.pos children _ row hrow)
      unfold writeNode
      rw [hwc]
      simp only [Option.bind_eq_bind, Option.some_bind]
      rw [hl1]
      simp only [Option.some_inj]
      rw [show rowsOf st.pos (.group id name pos children) index.rows.length =
        rowsOfL st.pos children index.rows.length ++
          [rootRowOf st.pos index.rows.length (.group id name pos children)]
        from rfl, mapAfter_append]
      rw [List.append_assoc, List.length_append]
      rfl

theorem writeChildren_fresh (st : Storage) : ∀ (cs : List Node)
    (index : PartitionIndex),
    (treeIdsL cs).Nodup →
    (∀ id ∈ treeIdsL cs, lookupIdx index.index_uuid id = none) →
    writeChildren index st cs = some
      (⟨index.table, index.rows ++ rowsOfL st.pos cs index.rows.length,
        mapAfter index.index_uuid index.rows.length
          (rowsOfL st.pos cs index.rows.length)⟩, st,
        childIdxs cs index.rows.length, 0)
  | [], index, _, _ => by
      unfold writeChildren
      rw [show rowsOfL st.pos ([] : List Node) index.rows.length =
        ([] : List PartitionTableRow) from rfl, List.append_nil]
      rfl
  | c :: cs, index, hnodup, hfresh => by
      have hsplit : treeIdsL (c :: cs) = treeIds c ++ treeIdsL cs := rfl
      have hnodupC : (treeIds c).Nodup := by
        rw [hsplit] at hnodup
        exact hnodup.of_append_left
      have hnodupCs : (treeIdsL cs).Nodup := by
        rw [hsplit] at hnodup
        exact hnodup.of_append_right
      have hdisj : ∀ i ∈ treeIds c, i ∉ treeIdsL cs := by
        rw [hsplit, List.nodup_append] at hnodup
        exact fun i hi hj => hnodup.2.2 hi hj
      have hfreshC : ∀ i ∈ treeIds c, lookupIdx index.index_uuid i = none :=
        fun i hi => hfresh i (by rw [hsplit]; exact List.mem_append_left _ hi)
      have hwn := writeNode_fresh st c index hnodupC hfreshC
      unfold writeChildren
      rw [hwn]
      simp only [Option.bind_eq_bind, Option.some_bind]
      have hlroot : lookupIdx (mapAfter index.index_uuid index.rows.length
          (rowsOf st.pos c index.rows.length)) c.nid =
          some (index.rows.length + (nodeCount c - 1)) :=
        lookup_mapAfter_root index.index_uuid st.pos c index.rows.length
      rw [hlroot]
      have hfreshCs : ∀ i ∈ treeIdsL cs,
          lookupIdx (mapAfter index.index_uuid index.rows.length
            (rowsOf st.pos c index.rows.length)) i = none := by
        intro i hi
        rw [lookup_mapAfter_not_mem]
        · exact hfresh i (by rw [hsplit]; exact List.mem_append_right _ hi)
        · intro row hrow he
          exact hdisj i (he ▸ mem_rowsOf_id st.pos c _ row hrow) hi
      have hwcs := writeChildren_fresh st cs
        ⟨index.table, index.rows ++ rowsOf st.pos c index.rows.length,
          mapAfter index.index_uuid index.rows.length
            (rowsOf st.pos c index.rows.length)⟩ hnodupCs hfreshCs
      rw [hwcs]
      simp only [Option.bind_eq_bind, Option.some_bind, Option.some_inj]
      have hlen : (index.rows ++ rowsOf st.pos c index.rows.length).length =
          index.rows.length + nodeCount c := by
        rw [List.length_append, rowsOf_length]
      rw [hlen]
      have hhead : index.rows.length + (nodeCount c - 1) =
          index.rows.length + nodeCount c - 1 := by
        have := nodeCount_pos c
        omega
      rw [hhead, List.append_assoc]
      rw [show rowsOfL st.pos (c :: cs) index.rows.length =
        rowsOf st.pos c index.rows.length ++
          rowsOfL st.pos cs (index.rows.length + nodeCount c) from rfl,
        mapAfter_append, rowsOf_length]
      rfl

end

end V0

namespace V0

/-- `rows` holds the postorder rows of `T` at positions `base`.. -/
def SegAt (rows : List PartitionTableRow) (off : Nat) (T : Node)
    (base : Nat) : Prop :=
  ∀ k, k < nodeCount T → rows.get? (base + k) = (rowsOf off T base).get? k

/-- `rows` holds the postorder rows of the forest `cs` at positions
`base`.. -/
def SegAtL (rows : List PartitionTableRow) (off : Nat) (cs : List Node)
    (base : Nat) : Prop :=
  ∀ k, k < nodeCountL cs → rows.get? (base + k) = (rowsOfL off cs base).get? k

theorem segAtL_head (rows : List PartitionTableRow) (off : Nat) (c : Node)
    (cs : List Node) (base : Nat) (h : SegAtL rows off (c :: cs) base) :
    SegAt rows off c base := by
  intro k hk
  have hcnt : k < nodeCountL (c :: cs) := by
    rw [show nodeCountL (c :: cs) = nodeCount c + nodeCountL cs from rfl]
    omega
  rw [h k hcnt, show rowsOfL off (c :: cs) base =
    rowsOf off c base ++ rowsOfL off cs (base + nodeCount c) from rfl,
    List.get?_append (by rw [rowsOf_length]; omega)]

theorem segAtL_tail (rows : List PartitionTableRow) (off : Nat) (c : Node)
    (cs : List Node) (base : Nat) (h : SegAtL rows off (c :: cs) base) :
    SegAtL rows off cs (base + nodeCount c) := by
  intro k hk
  have hcnt : nodeCount c + k < nodeCountL (c :: cs) := by
    rw [show nodeCountL (c :: cs) = nodeCount c + nodeCountL cs from rfl]
    omega
  have := h (nodeCount c + k) hcnt
  rw [show base + (nodeCount c + k) = base + nodeCount c + k by omega] at this
  rw [this, show rowsOfL off (c :: cs) base =
    rowsOf off c base ++ rowsOfL off cs (base + nodeCount c) from rfl,
    List.get?_append_right (by rw [rowsOf_length]; omega), rowsOf_length]
  congr 1
  omega

theorem segAt_children (rows : List PartitionTableRow) (off id : Nat)
    (name : List Nat) (pos : Nat × Nat) (children : List Node) (base : Nat)
    (h : SegAt rows off (.group id name pos children) base) :
    SegAtL rows off children base := by
  intro k hk
  have hcnt : k < nodeCount (.group id name pos children) := by
    rw [show nodeCount (.group id name pos children) =
      nodeCountL children + 1 from rfl]
    omega
  rw [h k hcnt, show rowsOf off (.group id name pos children) base =
    rowsOfL off children base ++ [rootRowOf off base
      (.group id name pos children)] from rfl,
    List.get?_append (by rw [rowsOfL_length]; omega)]

mutual

theorem reach_all (rows : List PartitionTableRow) (off : Nat) :
    ∀ (T : Node) (base : Nat), SegAt rows off T base →
    ∀ k, k < nodeCount T →
      ReachFrom rows (base + (nodeCount T - 1)) (base + k)
  | .note id vis lock text pos, base, hseg, k, hk => by
      have : k = 0 := by
        rw [show nodeCount (.note id vis lock text pos) = 1 from rfl] at hk
        omega
      subst this
      exact ReachFrom.refl _
  | .group id name pos children, base, hseg, k, hk => by
      rw [show nodeCount (.group id name pos children) =
        nodeCountL children + 1 from rfl] at hk ⊢
      by_cases hke : k = nodeCountL children
      · subst hke
        exact ReachFrom.refl _
      · have hklt : k < nodeCountL children := by omega
        obtain ⟨r, hrmem, hreach⟩ := reach_allL rows off children base
          (segAt_children rows off id name pos children base hseg) k hklt
        have hroot : rows.get? (base + nodeCountL children) =
            some (rootRowOf off base (.group id name pos children)) := by
          have := hseg (nodeCountL children)
            (by rw [show nodeCount (.group id name pos children) =
              nodeCountL children + 1 from rfl]; omega)
          rw [this]
          have hlast := rowsOf_get_last off (.group id name pos children) base
          rw [show nodeCount (.group id name pos children) - 1 =
            nodeCountL children from rfl] at hlast
          exact hlast
        have hchildren : r ∈ (rootRowOf off base
            (.group id name pos children)).children := by
          rw [show (rootRowOf off base (.group id name pos children)).children
            = childIdxs children base from rfl]
          exact hrmem
        rw [show nodeCountL children + 1 - 1 = nodeCountL children from rfl]
        exact ReachFrom.step _ hroot hchildren hreach

theorem reach_allL (rows : List PartitionTableRow) (off : Nat) :
    ∀ (cs : List Node) (base : Nat), SegAtL rows off cs base →
    ∀ k, k < nodeCountL cs →
      ∃ r ∈ childIdxs cs base, ReachFrom rows r (base + k)
  | [], base, hseg, k, hk => by
      rw [show nodeCountL ([] : List Node) = 0 from rfl] at hk
      omega
  | c :: cs, base, hseg, k, hk => by
      by_cases hkc : k < nodeCount c
      · have hr := reach_all rows off c base
          (segAtL_head rows off c cs base hseg) k hkc
        refine ⟨base + nodeCount c - 1, List.mem_cons_self _ _, ?_⟩
        rw [show base + nodeCount c - 1 = base + (nodeCount c - 1) by
          have := nodeCount_pos c
          omega]
        exact hr
      · have hkcs : k - nodeCount c < nodeCountL cs := by
          rw [show nodeCountL (c :: cs) = nodeCount c + nodeCountL cs
            from rfl] at hk
          omega
        obtain ⟨r, hrmem, hreach⟩ := reach_allL rows off cs
          (base + nodeCount c) (segAtL_tail rows off c cs base hseg)
          (k - nodeCount c) hkcs
        refine ⟨r, List.mem_cons_of_mem _ hrmem, ?_⟩
        rw [show base + nodeCount c + (k - nodeCount c) = base + k by omega]
          at hreach
        exact hreach

end

end V0

namespace V0

/-- Potential of a worklist under base `B`. -/
def phiB (B : Nat) (stack : List Nat) : Nat :=
  (stack.map (fun i => B ^ i)).sum

theorem maxChildren_bound (rows : List PartitionTableRow) :
    ∀ row ∈ rows, row.children.length ≤ maxChildren rows := by
  induction rows with
  | nil => intro row h; exact absurd h (List.not_mem_nil row)
  | cons r rs ih =>
      intro row h
      rcases List.mem_cons.mp h with rfl | h
      · simp only [maxChildren, List.foldr_cons]
        exact Nat.le_max_left _ _
      · have := ih row h
        simp only [maxChildren, List.foldr_cons]
        exact Nat.le_trans this (Nat.le_max_right _ _)

theorem sum_pow_le (B i : Nat) (hB : 1 ≤ B) :
    ∀ l : List Nat, (∀ c ∈ l, c < i) →
    (l.map (fun c => B ^ c)).sum ≤ l.length * B ^ (i - 1) := by
  intro l
  induction l with
  | nil => intro _; simp
  | cons c l ih =>
      intro h
      have hc : c < i := h c (List.mem_cons_self c l)
      have hone : B ^ c ≤ B ^ (i - 1) :=
        Nat.pow_le_pow_right hB (by omega)
      have hrest := ih (fun x hx => h x (List.mem_cons_of_mem c hx))
      simp only [List.map_cons, List.sum_cons, List.length_cons]
      calc B ^ c + (l.map (fun c => B ^ c)).sum
          ≤ B ^ (i - 1) + l.length * B ^ (i - 1) := Nat.add_le_add hone hrest
        _ = (l.length + 1) * B ^ (i - 1) := by ring

theorem visitLoop_total (rows : List PartitionTableRow)
    (hdec : ∀ i row, rows.get? i = some row → ∀ c ∈ row.children, c < i) :
    ∀ (f : Nat) (stack : List Nat) (marks : List Bool),
    marks.length = rows.length → (∀ i ∈ stack, i < rows.length) →
    phiB (maxChildren rows + 2) stack < f →
    ∃ final, visitLoop rows f stack marks = some final := by
  intro f
  induction f with
  | zero =>
      intro stack marks _ _ hphi
      omega
  | succ f ih =>
      intro stack marks hmlen hvalid hphi
      match stack with
      | [] => exact ⟨marks, rfl⟩
      | i :: rest =>
          have hi : i < rows.length := hvalid i (List.mem_cons_self i rest)
          have hgets : ∃ row, rows.get? i = some row := by
            rw [List.get?_eq_get hi]
            exact ⟨_, rfl⟩
          obtain ⟨row, hrow⟩ := hgets
          have hchlt : ∀ c ∈ row.children, c < i := hdec i row hrow
          have hchlen : row.children.length ≤ maxChildren rows :=
            maxChildren_bound rows row (by
              rw [List.get?_eq_some] at hrow
              obtain ⟨hl, hg⟩ := hrow
              exact hg ▸ List.get_mem rows i hl)
          unfold visitLoop
          rw [if_pos (by rw [hmlen]; exact hi), hrow]
          apply ih
          · rw [List.length_set]
            exact hmlen
          · intro j hj
            rw [List.mem_append, List.mem_reverse] at hj
            rcases hj with hj | hj
            · exact Nat.lt_trans (hchlt j hj) hi
            · exact hvalid j (List.mem_cons_of_mem i hj)
          · set B := maxChildren rows + 2 with hB
            have hBpos : 1 ≤ B := by omega
            have hsum : (row.children.map (fun c => B ^ c)).sum ≤
                row.children.length * B ^ (i - 1) :=
              sum_pow_le B i hBpos row.children hchlt
            have hphi2 : phiB B (row.children.reverse ++ rest) =
                (row.children.map (fun c => B ^ c)).sum + phiB B rest := by
              simp [phiB, List.map_append, List.sum_append, List.map_reverse,
                List.sum_reverse]
            have hphi1 : phiB B (i :: rest) = B ^ i + phiB B rest := by
              simp [phiB]
            rw [hphi1] at hphi
            rw [hphi2]
            by_cases hiz : i = 0
            · subst hiz
              have hempty : row.children = [] :=
                List.eq_nil_iff_forall_not_mem.mpr
                  (fun c hc => absurd (hchlt c hc) (Nat.not_lt_zero c))
              rw [hempty]
              simp only [List.map_nil, List.sum_nil, Nat.zero_add]
              have : B ^ 0 = 1 := Nat.pow_zero B
              omega
            · have hpow : B ^ i = B * B ^ (i - 1) := by
                conv_lhs => rw [show i = (i - 1) + 1 by omega]
                rw [Nat.pow_succ]
                ring
              have hposp : 1 ≤ B ^ (i - 1) := Nat.one_le_pow _ _ (by omega)
              have hcb : row.children.length * B ^ (i - 1) ≤
                  maxChildren rows * B ^ (i - 1) :=
                Nat.mul_le_mul_right _ hchlen
              have : (row.children.map (fun c => B ^ c)).sum + 1 ≤ B ^ i := by
                rw [hpow, hB]
                calc (row.children.map (fun c => B ^ c)).sum + 1
                    ≤ maxChildren rows * B ^ (i - 1) + 1 := by omega
                  _ ≤ maxChildren rows * B ^ (i - 1) + 2 * B ^ (i - 1) := by
                      omega
                  _ = (maxChildren rows + 2) * B ^ (i - 1) := by ring
              omega

end V0

namespace V0

theorem pBool_boolByte (v : Bool) (r : List Nat) :
    pBool (boolByte v ++ r) = some (r, v) := by
  cases v <;> simp [pBool, boolByte, pLE, pBytes, fromLE]

theorem pCount_toLE (k : Nat) : ∀ (l : List Nat) (r : List Nat),
    (∀ u ∈ l, u < 256 ^ k) →
    DocumentFile.pCount l.length (pLE k)
      ((l.map (fun x => toLE x k)).flatten ++ r) = some (r, l) := by
  intro l
  induction l with
  | nil => intro r _; simp [DocumentFile.pCount]
  | cons u l ih =>
      intro r h
      have hu : u < 256 ^ k := h u (List.mem_cons_self u l)
      simp only [List.map_cons, List.flatten_cons, List.length_cons,
        DocumentFile.pCount, List.append_assoc]
      rw [pLE_toLE_of_lt _ _ _ hu]
      simp only [Option.bind_eq_bind, Option.some_bind]
      rw [ih r (fun v hv => h v (List.mem_cons_of_mem u hv))]
      rfl

theorem rowParse_rowWrite (row : PartitionTableRow) (h : RowWF row)
    (rest : List Nat) : rowParse (rowWrite row ++ rest) = some (rest, row) := by
  obtain ⟨id, ct, off, sz, ro, vi, lo, fo, pxy, exy, name, children, preview⟩ := row
  obtain ⟨px, py⟩ := pxy
  obtain ⟨ex, ey⟩ := exy
  obtain ⟨h1, h2, h3, h4, h5, h6, h7, h8, h9, h10, h11⟩ := h
  have f1 : ∀ r, pLE 16 (toLE id 16 ++ r) = some (r, id) :=
    fun r => pLE_toLE_of_lt id 16 r h1
  have f3 : ∀ r, pLE 8 (toLE off 8 ++ r) = some (r, off) :=
    fun r => pLE_toLE_of_lt off 8 r h2
  have f4 : ∀ r, pLE 4 (toLE sz 4 ++ r) = some (r, sz) :=
    fun r => pLE_toLE_of_lt sz 4 r h3
  have f5 : ∀ r, pLE 4 (toLE px 4 ++ r) = some (r, px) :=
    fun r => pLE_toLE_of_lt px 4 r h4
  have f6 : ∀ r, pLE 4 (toLE py 4 ++ r) = some (r, py) :=
    fun r => pLE_toLE_of_lt py 4 r h5
  have f7 : ∀ r, pLE 4 (toLE ex 4 ++ r) = some (r, ex) :=
    fun r => pLE_toLE_of_lt ex 4 r h6
  have f8 : ∀ r, pLE 4 (toLE ey 4 ++ r) = some (r, ey) :=
    fun r => pLE_toLE_of_lt ey 4 r h7
  have fname : ∀ r, DocumentFile.strParse (DocumentFile.strWrite name ++ r) =
      some (r, name) := fun r => DocumentFile.strParse_write name r h8
  have fcc : ∀ r, pLE 4 (toLE children.length 4 ++ r) =
      some (r, children.length) :=
    fun r => pLE_toLE_of_lt children.length 4 r h9
  have fch : ∀ r, DocumentFile.pCount children.length (pLE 4)
      ((children.map (fun x => toLE x 4)).flatten ++ r) = some (r, children) :=
    fun r => pCount_toLE 4 children r h10
  have fpc : ∀ r, pLE 4 (toLE preview.length 4 ++ r) =
      some (r, preview.length) :=
    fun r => pLE_toLE_of_lt preview.length 4 r h11
  have fpr : ∀ r, pBytes preview.length (preview ++ r) = some (r, preview) :=
    fun r => pBytes_append preview r
  have fct : ∀ r, pLE 2 (toLE (ctDiscr ct) 2 ++ r) = some (r, ctDiscr ct) :=
    fun r => pLE_toLE_of_lt (ctDiscr ct) 2 r (by cases ct <;> decide)
  cases ct with
  | group =>
      simp only [rowParse, rowWrite, List.append_assoc, f1, fct, f3, f4,
        pBool_boolByte, f5, f6, f7, f8, fname, fcc, fch, fpc, fpr]
      rfl
  | note =>
      simp only [rowParse, rowWrite, List.append_assoc, f1, fct, f3, f4,
        pBool_boolByte, f5, f6, f7, f8, fname, fcc, fch, fpc, fpr]
      rfl

theorem rowParse_nil : rowParse [] = none := by decide

theorem rowWrite_length_pos (r : PartitionTableRow) :
    0 < (rowWrite r).length := by
  simp [rowWrite, List.length_append, toLE_length]

theorem many0Rows_concat : ∀ (rows : List PartitionTableRow) (fuel : Nat),
    (∀ row ∈ rows, RowWF row) → rows.length < fuel →
    many0Rows fuel ((rows.map rowWrite).flatten) = (rows, []) := by
  intro rows
  induction rows with
  | nil =>
      intro fuel _ hf
      match fuel, hf with
      | f + 1, _ =>
          simp only [List.map_nil, List.flatten_nil]
          unfold many0Rows
          rw [rowParse_nil]
  | cons r rs ih =>
      intro fuel hwf hf
      match fuel, hf with
      | f + 1, hf =>
          simp only [List.map_cons, List.flatten_cons]
          unfold many0Rows
          simp only [rowParse_rowWrite r (hwf r (List.mem_cons_self r rs))]
          rw [if_pos (by
            simp only [List.length_append]
            have := rowWrite_length_pos r
            omega)]
          rw [ih f (fun row hrow => hwf row (List.mem_cons_of_mem r hrow))
            (by simpa using hf)]

end V0

namespace V0

mutual

/-- Decoding a freshly written subtree from its chunk table reconstructs
it exactly, for any payload bytes handed in (the v0 codecs rebuild nodes
from their rows alone). -/
theorem parseNode_seg (index : PartitionIndex) (off : Nat) :
    ∀ (T : Node) (base fuel : Nat) (bytes : List Nat),
    SegAt index.rows off T base →
    base + nodeCount T ≤ fuel →
    parseNode index fuel (rootRowOf off base T) bytes = some (bytes, T)
  | .note id vis lock text pos, base, fuel, bytes, hseg, hfuel => by
      match fuel, hfuel with
      | f + 1, _ =>
          unfold parseNode
          rfl
  | .group id name pos children, base, fuel, bytes, hseg, hfuel => by
      have hcnt : nodeCount (.group id name pos children) =
          nodeCountL children + 1 := rfl
      match fuel, hfuel with
      | f + 1, hfuel =>
          unfold parseNode
          rw [show (rootRowOf off base
            (.group id name pos children)).chunk_type = ChunkType.group
            from rfl]
          rw [show (rootRowOf off base
            (.group id name pos children)).children =
            childIdxs children base from rfl]
          rw [parseNodeL_seg index off children base f
            (segAt_children index.rows off id name pos children base hseg)
            (by rw [hcnt] at hfuel; omega)]
          rfl

/-- Decoding each child root of a freshly written forest through the
chunk table yields the children in order. -/
theorem parseNodeL_seg (index : PartitionIndex) (off : Nat) :
    ∀ (cs : List Node) (base f : Nat),
    SegAtL index.rows off cs base →
    base + nodeCountL cs ≤ f →
    (childIdxs cs base).mapM (fun i => do
      let crow ← index.rows.get? i
      let p ← parseNode index f crow []
      some p.2) = some cs
  | [], base, f, hseg, hf => rfl
  | c :: cs, base, f, hseg, hf => by
      have hcnt : nodeCountL (c :: cs) = nodeCount c + nodeCountL cs := rfl
      rw [show childIdxs (c :: cs) base =
        (base + nodeCount c - 1) :: childIdxs cs (base + nodeCount c)
        from rfl]
      rw [List.mapM_cons]
      have hpos := nodeCount_pos c
      have hget : index.rows.get? (base + nodeCount c - 1) =
          some (rootRowOf off base c) := by
        have hsc := segAtL_head index.rows off c cs base hseg
        have := hsc (nodeCount c - 1) (by omega)
        rw [show base + (nodeCount c - 1) = base + nodeCount c - 1 by omega]
          at this
        rw [this]
        exact rowsOf_get_last off c base
      have hparse : parseNode index f (rootRowOf off base c) [] =
          some ([], c) :=
        parseNode_seg index off c base f []
          (segAtL_head index.rows off c cs base hseg)
          (by rw [hcnt] at hf; omega)
      have hrest := parseNodeL_seg index off cs (base + nodeCount c) f
        (segAtL_tail index.rows off c cs base hseg)
        (by rw [hcnt] at hf; omega)
      simp only [hget, hparse, Option.bind_eq_bind, Option.some_bind]
      show ((childIdxs cs (base + nodeCount c)).mapM (fun i => do
          let crow ← index.rows.get? i
          let p ← parseNode index f crow []
          some p.2)).bind (fun l => some (c :: l)) = some (c :: cs)
      rw [hrest]
      rfl

end

end V0

namespace V0

theorem filter_enumFrom_all {α : Type} (l : List α) : ∀ (n : Nat)
    (pred : Nat × α → Bool), (∀ p ∈ List.enumFrom n l, pred p = true) →
    ((List.enumFrom n l).filter pred).map Prod.snd = l := by
  induction l with
  | nil => intro n pred _; rfl
  | cons a l ih =>
      intro n pred h
      rw [List.enumFrom_cons, List.filter_cons_of_pos
        (h (n, a) (List.mem_cons_self _ _)), List.map_cons]
      rw [ih (n + 1) pred (fun p hp => h p (List.mem_cons_of_mem _ hp))]

theorem mem_enumFrom_lt {α : Type} (l : List α) : ∀ (n : Nat) (p : Nat × α),
    p ∈ List.enumFrom n l → n ≤ p.1 ∧ p.1 < n + l.length := by
  induction l with
  | nil => intro n p h; exact absurd h (List.not_mem_nil p)
  | cons a l ih =>
      intro n p h
      rw [List.enumFrom_cons] at h
      rcases List.mem_cons.mp h with rfl | h
      · simp
      · have := ih (n + 1) p h
        simp only [List.length_cons]
        omega

theorem tableParse_write (t : PartitionTable) (r : List Nat)
    (hs : t.size < 256 ^ 4) (hh : t.hash < 256 ^ 16) :
    tableParse (tableWrite t ++ r) = some (r, t) := by
  simp only [tableParse, tableWrite, List.append_assoc, Option.bind_eq_bind]
  rw [pLE_toLE_of_lt _ _ _ hs]
  simp only [Option.some_bind]
  rw [pLE_toLE_of_lt _ _ _ hh]
  rfl

theorem length_le_flatten_rowWrite : ∀ rows : List PartitionTableRow,
    rows.length ≤ ((rows.map rowWrite).flatten).length := by
  intro rows
  induction rows with
  | nil => exact Nat.le_refl 0
  | cons r rs ih =>
      simp only [List.map_cons, List.flatten_cons, List.length_append,
        List.length_cons]
      have := rowWrite_length_pos r
      omega

theorem tableWrite_length (t : PartitionTable) :
    (tableWrite t).length = 20 := by
  simp [tableWrite, toLE_length]

end V0

namespace V0

/-- Stage 1 of the roundtrip: a full `write` of a fresh tree onto an
empty container produces the header, the postorder rows, and the table
trailer, with the chunk table holding exactly the tree's rows. -/
theorem write_empty_eq (T : Node) (hash : Nat)
    (hnodup : (treeIds T).Nodup)
    (hsz : ((rowsOf 5 T 0).map rowWrite).flatten.length < 2 ^ 32) :
    ∃ (p n : Nat), File.write (File.empty hash) ⟨[], 0⟩ T = some
      (⟨⟨0⟩, ⟨⟨hash, ((rowsOf 5 T 0).map rowWrite).flatten.length⟩,
          rowsOf 5 T 0, mapAfter [] 0 (rowsOf 5 T 0)⟩⟩,
        ⟨(Header.write ⟨0⟩ ++ ((rowsOf 5 T 0).map rowWrite).flatten) ++
          tableWrite ⟨hash, ((rowsOf 5 T 0).map rowWrite).flatten.length⟩, p⟩,
        n) := by
  refine ⟨(Header.write (⟨0⟩ : Header) ++
      ((rowsOf 5 T 0).map rowWrite).flatten).length +
      (tableWrite ⟨hash, ((rowsOf 5 T 0).map rowWrite).flatten.length⟩).length,
    (Header.write (⟨0⟩ : Header)).length + 0 +
      (((rowsOf 5 T 0).map rowWrite).flatten.length +
        (tableWrite ⟨hash,
          ((rowsOf 5 T 0).map rowWrite).flatten.length⟩).length), ?_⟩
  unfold File.write
  simp only [show ((⟨[], 0⟩ : Storage).seekStart 0).writeAll
    (Header.write (File.empty hash).header) = (⟨Header.write ⟨0⟩, 5⟩ : Storage)
    from rfl]
  have hfresh : ∀ id ∈ treeIds T,
      lookupIdx (File.empty hash).index.index_uuid id = none :=
    fun id _ => rfl
  rw [writeNode_fresh ⟨Header.write ⟨0⟩, 5⟩ T (File.empty hash).index
    hnodup hfresh]
  have e2 : (File.empty hash).index.rows = [] := rfl
  have e3 : (File.empty hash).index.index_uuid = [] := rfl
  have e4 : (File.empty hash).index.table = ⟨hash, 0⟩ := rfl
  have e5 : (File.empty hash).header = (⟨0⟩ : Header) := rfl
  have e1 : (Storage.mk (Header.write ⟨0⟩) 5).pos = 5 := rfl
  simp only [e1, e2, e3, e4, e5, List.nil_append, List.length_nil,
    Option.bind_eq_bind, Option.some_bind]
  unfold write_partition
  have hroot : lookupIdx (mapAfter [] 0 (rowsOf 5 T 0)) T.nid =
      some (0 + (nodeCount T - 1)) := lookup_mapAfter_root [] 5 T 0
  rw [Nat.zero_add] at hroot
  simp only [hroot, Nat.zero_add]
  have hdec : ∀ i row, (rowsOf 5 T 0).get? i = some row →
      ∀ c ∈ row.children, c < i := by
    intro i row h c hc
    have := rowsOf_children_bound 5 T 0 i row h c hc
    omega
  have hvalid : ∀ i ∈ [nodeCount T - 1], i < (rowsOf 5 T 0).length := by
    intro i hi
    rw [List.mem_singleton] at hi
    subst hi
    rw [rowsOf_length]
    have := nodeCount_pos T
    omega
  have hphi : phiB (maxChildren (rowsOf 5 T 0) + 2) [nodeCount T - 1] <
      partFuel (rowsOf 5 T 0) := by
    unfold phiB partFuel
    simp only [List.map_cons, List.map_nil, List.sum_cons, List.sum_nil]
    have hb : (maxChildren (rowsOf 5 T 0) + 2) ^ (nodeCount T - 1) ≤
        (maxChildren (rowsOf 5 T 0) + 2) ^ ((rowsOf 5 T 0).length + 1) :=
      Nat.pow_le_pow_right (by omega) (by rw [rowsOf_length]; omega)
    omega
  obtain ⟨marks, hloop⟩ := visitLoop_total (rowsOf 5 T 0) hdec
    (partFuel (rowsOf 5 T 0)) [nodeCount T - 1]
    (List.replicate (rowsOf 5 T 0).length false)
    (List.length_replicate _ _) hvalid hphi
  simp only [hloop]
  have hmarks : ∀ j, j < (rowsOf 5 T 0).length →
      marks.getD j false = true := by
    intro j hj
    rw [visitLoop_marks (rowsOf 5 T 0) _ _ _ _ hloop j]
    refine Or.inr ⟨nodeCount T - 1, List.mem_singleton_self _, ?_⟩
    have hseg : SegAt (rowsOf 5 T 0) 5 T 0 := by
      intro k hk
      rw [Nat.zero_add]
    have := reach_all (rowsOf 5 T 0) 5 T 0 hseg j
      (by rw [rowsOf_length] at hj; exact hj)
    simpa using this
  have hfilter : ((rowsOf 5 T 0).enum.filter
      (fun p => marks.getD p.1 false)).map Prod.snd = rowsOf 5 T 0 := by
    rw [show (rowsOf 5 T 0).enum = List.enumFrom 0 (rowsOf 5 T 0) from rfl]
    apply filter_enumFrom_all
    intro p hp
    have hb := mem_enumFrom_lt (rowsOf 5 T 0) 0 p hp
    exact hmarks p.1 (by omega)
  simp only [hfilter]
  have hmod : ((rowsOf 5 T 0).map rowWrite).flatten.length % 2 ^ 32 =
      ((rowsOf 5 T 0).map rowWrite).flatten.length := Nat.mod_eq_of_lt hsz
  simp only [hmod]
  rw [writeAll_at_end ⟨Header.write ⟨0⟩, 5⟩ _ rfl]
  rw [writeAll_at_end ⟨Header.write ⟨0⟩ ++
    ((rowsOf 5 T 0).map rowWrite).flatten, _⟩ _ (by simp)]
  rfl

end V0

namespace V0

/-- Stage 2 of the roundtrip: re-opening a container laid out as
header ++ row bytes ++ table trailer recovers the header, the table and
the rows, and rebuilds the index with `PartitionIndex::new`. -/
theorem fromStorage_layout (R : List PartitionTableRow) (hash p : Nat)
    (hwf : ∀ row ∈ R, RowWF row) (hne : R ≠ [])
    (hsz : ((R.map rowWrite).flatten).length < 2 ^ 32)
    (hhash : hash < 256 ^ 16) :
    File.fromStorage ⟨(Header.write ⟨0⟩ ++ (R.map rowWrite).flatten) ++
      tableWrite ⟨hash, (R.map rowWrite).flatten.length⟩, p⟩ =
    .ok ⟨⟨0⟩, PartitionIndex.new
      ⟨hash, (R.map rowWrite).flatten.length⟩ R⟩ := by
  have hsz4 : (R.map rowWrite).flatten.length < 256 ^ 4 := by
    have he : (2:Nat) ^ 32 = 256 ^ 4 := by norm_num
    rw [he] at hsz
    exact hsz
  have hRpos : 0 < R.length := List.length_pos.mpr hne
  have hBpos : 0 < (R.map rowWrite).flatten.length :=
    Nat.lt_of_lt_of_le hRpos (length_le_flatten_rowWrite R)
  have htl : (tableWrite ⟨hash, (R.map rowWrite).flatten.length⟩).length = 20 :=
    tableWrite_length _
  have hdl : ((Header.write ⟨0⟩ ++ (R.map rowWrite).flatten) ++
      tableWrite ⟨hash, (R.map rowWrite).flatten.length⟩).length =
      5 + (R.map rowWrite).flatten.length + 20 := by
    simp only [List.length_append, htl]
    rfl
  have hgot0 : ((Header.write ⟨0⟩ ++ (R.map rowWrite).flatten) ++
      tableWrite ⟨hash, (R.map rowWrite).flatten.length⟩).take 5 =
      Header.write ⟨0⟩ := by
    rw [List.append_assoc, List.take_append_of_le_length
      (show (5:Nat) ≤ (Header.write (⟨0⟩ : Header)).length from Nat.le_refl 5)]
    rfl
  have hrep0 : Header.write (⟨0⟩ : Header) ++
      List.replicate (5 - (Header.write (⟨0⟩ : Header)).length) 0 =
      Header.write ⟨0⟩ := rfl
  have hhp : Header.parse (Header.write (⟨0⟩ : Header)) =
      some ([], (⟨0⟩ : Header)) := rfl
  have harith1 : 5 + (R.map rowWrite).flatten.length + 20 - 20 =
      5 + (R.map rowWrite).flatten.length := by omega
  have hgot1 : (((Header.write ⟨0⟩ ++ (R.map rowWrite).flatten) ++
      tableWrite ⟨hash, (R.map rowWrite).flatten.length⟩).drop
        (5 + (R.map rowWrite).flatten.length)).take 20 =
      tableWrite ⟨hash, (R.map rowWrite).flatten.length⟩ := by
    have e : (Header.write (⟨0⟩ : Header) ++
        (R.map rowWrite).flatten).length =
        5 + (R.map rowWrite).flatten.length := by
      simp only [List.length_append]
      rfl
    rw [← e, List.drop_left, ← htl, List.take_length]
  have hrep1 : tableWrite ⟨hash, (R.map rowWrite).flatten.length⟩ ++
      List.replicate
        (20 - (tableWrite ⟨hash, (R.map rowWrite).flatten.length⟩).length) 0 =
      tableWrite ⟨hash, (R.map rowWrite).flatten.length⟩ := by
    rw [htl]
    simp
  have htp : tableParse (tableWrite ⟨hash, (R.map rowWrite).flatten.length⟩) =
      some ([], ⟨hash, (R.map rowWrite).flatten.length⟩) := by
    have h := tableParse_write ⟨hash, (R.map rowWrite).flatten.length⟩ []
      hsz4 hhash
    rwa [List.append_nil] at h
  have harith2 : 5 + (R.map rowWrite).flatten.length + 20 -
      (20 + (R.map rowWrite).flatten.length) = 5 := by omega
  have hgot2 : (((Header.write ⟨0⟩ ++ (R.map rowWrite).flatten) ++
      tableWrite ⟨hash, (R.map rowWrite).flatten.length⟩).drop 5).take
        (R.map rowWrite).flatten.length = (R.map rowWrite).flatten := by
    rw [List.append_assoc,
      show (5:Nat) = (Header.write (⟨0⟩ : Header)).length from rfl,
      List.drop_left]
    exact List.take_left _ _
  have hrep2 : (R.map rowWrite).flatten ++
      List.replicate ((R.map rowWrite).flatten.length -
        (R.map rowWrite).flatten.length) 0 = (R.map rowWrite).flatten := by
    simp
  have hm : many0Rows ((R.map rowWrite).flatten.length + 1)
      ((R.map rowWrite).flatten) = (R, []) :=
    many0Rows_concat R _ hwf (Nat.lt_succ_of_le (length_le_flatten_rowWrite R))
  unfold File.fromStorage
  simp only [Storage.seekStart, Storage.readBuf, Storage.seekEndNeg,
    List.drop_zero, hgot0, hrep0, hhp, hdl]
  rw [if_pos (show (20:Nat) ≤ 5 + (R.map rowWrite).flatten.length + 20
    by omega)]
  simp only [harith1, hgot1, hrep1, htp]
  rw [if_neg (show ¬((R.map rowWrite).flatten.length = 0) by omega)]
  simp only [hdl]
  rw [if_pos (show 20 + (R.map rowWrite).flatten.length ≤
    5 + (R.map rowWrite).flatten.length + 20 by omega)]
  simp only [harith2, hgot2, hrep2, hm]

end V0

namespace V0

/-- Stage 3 of the roundtrip: on a file whose index was rebuilt by
`PartitionIndex::new` from the postorder rows of a tree, `get_node` with
the root's id decodes the whole tree back. -/
theorem get_node_new_root (T : Node) (tbl : PartitionTable) (st : Storage) :
    get_node ⟨⟨0⟩, PartitionIndex.new tbl (rowsOf 5 T 0)⟩ st T.nid =
      some (((st.seekStart (rootRowOf 5 0 T).chunk_offset).readBuf 0).1,
        Except.ok T) := by
  have hmap : (PartitionIndex.new tbl (rowsOf 5 T 0)).index_uuid =
      mapAfter [] 0 (rowsOf 5 T 0) := rfl
  have hrows : (PartitionIndex.new tbl (rowsOf 5 T 0)).rows =
      rowsOf 5 T 0 := rfl
  have hlk : lookupIdx (PartitionIndex.new tbl (rowsOf 5 T 0)).index_uuid
      T.nid = some (nodeCount T - 1) := by
    rw [hmap]
    have h := lookup_mapAfter_root [] 5 T 0
    rwa [Nat.zero_add] at h
  have hget : (PartitionIndex.new tbl (rowsOf 5 T 0)).rows.get?
      (nodeCount T - 1) = some (rootRowOf 5 0 T) := by
    rw [hrows]
    exact rowsOf_get_last 5 T 0
  have hp2 : ((st.seekStart (rootRowOf 5 0 T).chunk_offset).readBuf 0).2 =
      [] := rfl
  have hpn : parseNode (PartitionIndex.new tbl (rowsOf 5 T 0))
      ((PartitionIndex.new tbl (rowsOf 5 T 0)).rows.length + 1)
      (rootRowOf 5 0 T) [] = some ([], T) := by
    apply parseNode_seg _ 5 T 0
    · intro k hk
      rw [hrows, Nat.zero_add]
    · rw [hrows, rowsOf_length]
      omega
  unfold get_node
  simp only [hlk, Option.isSome_some, Bool.true_eq_false, if_false, hget,
    readChunkBytes, hp2, hpn]

end V0

/-- C1: for every node tree (within the format's field bounds and with
pairwise distinct ids), `write` on an empty container, then re-opening
the container with `File::from` and calling `get_node` with the root's
id, reconstructs a tree structurally equal to the original: same ids,
names, positions and child order. -/
theorem C1_write_from_get_node_roundtrip (T : V0.Node) (hash : Nat)
    (hnodup : (V0.treeIds T).Nodup)
    (hok : V0.nodeOkB T = true)
    (hcnt : V0.nodeCount T ≤ 256 ^ 4)
    (hsz : ((V0.rowsOf 5 T 0).map V0.rowWrite).flatten.length < 2 ^ 32)
    (hhash : hash < 256 ^ 16) :
    ∃ (f1 f2 : V0.File) (st1 st2 : V0.Storage) (n : Nat),
      V0.File.write (V0.File.empty hash) ⟨[], 0⟩ T = some (f1, st1, n) ∧
      V0.File.fromStorage st1 = .ok f2 ∧
      V0.get_node f2 st1 T.nid = some (st2, Except.ok T) := by
  obtain ⟨p, n, hw⟩ := V0.write_empty_eq T hash hnodup hsz
  have hwf : ∀ row ∈ V0.rowsOf 5 T 0, V0.RowWF row :=
    V0.rowsOf_RowWF 5 (by norm_num) T 0 hok (by omega)
  have hne : V0.rowsOf 5 T 0 ≠ [] := by
    have h1 := V0.rowsOf_length 5 T 0
    have h2 := V0.nodeCount_pos T
    intro hcon
    rw [hcon] at h1
    simp only [List.length_nil] at h1
    omega
  exact ⟨_, _, _, _, _, hw,
    V0.fromStorage_layout (V0.rowsOf 5 T 0) hash p hwf hne hsz hhash,
    V0.get_node_new_root T _ _⟩

/-- Concrete instance of the roundtrip: the two-node tree `scenTree1`
(Group 42 with one Note child 7) written to an empty container, re-opened
and fetched by id 42, comes back equal to `scenTree1`. -/
theorem C1_write_from_get_node_roundtrip_witness :
    (V0.treeIds scenTree1).Nodup ∧
    V0.nodeOkB scenTree1 = true ∧
    V0.nodeCount scenTree1 ≤ 256 ^ 4 ∧
    ((V0.rowsOf 5 scenTree1 0).map V0.rowWrite).flatten.length < 2 ^ 32 ∧
    99 < 256 ^ 16 ∧
    ∃ (f1 f2 : V0.File) (st1 st2 : V0.Storage) (n : Nat),
      V0.File.write (V0.File.empty 99) ⟨[], 0⟩ scenTree1 =
        some (f1, st1, n) ∧
      V0.File.fromStorage st1 = .ok f2 ∧
      V0.get_node f2 st1 scenTree1.nid = some (st2, Except.ok scenTree1) :=
  ⟨by decide, by decide, by decide, by decide, by decide,
    C1_write_from_get_node_roundtrip scenTree1 99 (by decide) (by decide)
      (by decide) (by decide) (by decide)⟩
